import Mathlib

/-!
# Verification of the CODAR radialmetric QC pipeline (`qcutils.py`)

Shallow embedding of the quality-control / weighted-averaging pipeline.

* A table cell is a `Val := Option ℚ`: `none` models IEEE NaN, `some q` a
  finite float (modelled exactly as a rational).  Every numpy elementwise
  comparison (`==`, `<`, `>`, `<=`) is false when either operand is NaN,
  which the `v…` helpers below reproduce.
* A radialmetric row (`Row`) carries the columns the pipeline reads; a
  missing column value is `none` (NaN), matching a float matrix.
* Real-valued computations of the source (`10**(dB/10)`, `std`, `sin`,
  `cos`) are embedded over `ℝ`; NaN propagation through those computations
  is modelled by `Option ℝ` with `Option.map₂` (any NaN operand yields NaN,
  as for IEEE arithmetic on the values reached by this code).
-/

/-- A table value: `none` is NaN, `some q` a finite numeric value. -/
abbrev Val := Option ℚ

/-- numpy `v == q` against a scalar: false when `v` is NaN. -/
def veqQ : Val → ℚ → Bool
  | some a, q => decide (a = q)
  | none, _ => false

/-- numpy `v < q` against a scalar: false when `v` is NaN. -/
def vltQ : Val → ℚ → Bool
  | some a, q => decide (a < q)
  | none, _ => false

/-- numpy `v > q` against a scalar: false when `v` is NaN. -/
def vgtQ : Val → ℚ → Bool
  | some a, q => decide (q < a)
  | none, _ => false

/-- numpy `v == w` elementwise: false when either side is NaN. -/
def veqV : Val → Val → Bool
  | some a, some b => decide (a = b)
  | some _, none => false
  | none, _ => false

/-- numpy `v <= w` elementwise: false when either side is NaN. -/
def vleV : Val → Val → Bool
  | some a, some b => decide (a ≤ b)
  | some _, none => false
  | none, _ => false

/-- Add a scalar to a value; NaN propagates. -/
def vaddQ (v : Val) (q : ℚ) : Val := v.map (· + q)

/-- Subtract a scalar from a value; NaN propagates. -/
def vsubQ (v : Val) (q : ℚ) : Val := v.map (· - q)

/-- `numpy.mod(v, m)` (floored modulus, as numpy computes it); NaN propagates. -/
def vmodQ (v : Val) (m : ℚ) : Val := v.map (fun a => a - m * (⌊a / m⌋ : ℤ))

/-- One radialmetric observation row.  Field order and names follow the
LLUV columns the source reads (`VFLG`, `MSEL`, the three DOA power columns
`MSR1/MDR1/MDR2`, the three width columns `MSW1/MDW1/MDW2`, monopole SNR
`MA3S`, cell identity `SPRC/BEAR`, velocity `VELO`, position `LOND/LATD/RNGE`
and the three MUSIC power columns `MSP1/MDP1/MDP2`). -/
structure Row where
  VFLG : Val := none
  MSEL : Val := none
  MSR1 : Val := none
  MDR1 : Val := none
  MDR2 : Val := none
  MSW1 : Val := none
  MDW1 : Val := none
  MDW2 : Val := none
  MA3S : Val := none
  SPRC : Val := none
  BEAR : Val := none
  VELO : Val := none
  LOND : Val := none
  LATD : Val := none
  RNGE : Val := none
  MSP1 : Val := none
  MDP1 : Val := none
  MDP2 : Val := none
deriving DecidableEq

/-- The `bad` mask of `threshold_qc_doa_peak_power`:
`((MSEL==1)&(MSR1<t)) | ((MSEL==2)&(MDR1<t)) | ((MSEL==3)&(MDR2<t)) | havenan`
with `havenan = isnan(MSR1)|isnan(MDR1)|isnan(MDR2)`. -/
def peakPowerBad (t : ℚ) (r : Row) : Bool :=
  ((veqQ r.MSEL 1 && vltQ r.MSR1 t) || (veqQ r.MSEL 2 && vltQ r.MDR1 t) ||
    (veqQ r.MSEL 3 && vltQ r.MDR2 t)) ||
  (r.MSR1.isNone || r.MDR1.isNone || r.MDR2.isNone)

/-- `threshold_qc_doa_peak_power(d, types_str, threshold=5.0)`:
copies the table and performs `d1[bad, VFLG] = d[bad, VFLG] + (1 << 1)`. -/
def threshold_qc_doa_peak_power (d : List Row) (threshold : ℚ := 5) : List Row :=
  d.map fun r => if peakPowerBad threshold r then { r with VFLG := vaddQ r.VFLG 2 } else r

/-- The `bad` mask of `threshold_qc_doa_half_power_width`:
selector-gated `>` comparisons over the width columns, or any width NaN. -/
def halfPowerWidthBad (t : ℚ) (r : Row) : Bool :=
  ((veqQ r.MSEL 1 && vgtQ r.MSW1 t) || (veqQ r.MSEL 2 && vgtQ r.MDW1 t) ||
    (veqQ r.MSEL 3 && vgtQ r.MDW2 t)) ||
  (r.MSW1.isNone || r.MDW1.isNone || r.MDW2.isNone)

/-- `threshold_qc_doa_half_power_width(d, types_str, threshold=50.0)`:
copies the table and performs `d2[bad, VFLG] = d[bad, VFLG] + (1 << 2)`. -/
def threshold_qc_doa_half_power_width (d : List Row) (threshold : ℚ := 50) : List Row :=
  d.map fun r => if halfPowerWidthBad threshold r then { r with VFLG := vaddQ r.VFLG 4 } else r

/-- The `bad` mask of `threshold_qc_monopole_snr`: `d[:,MA3S] < threshold`
(no NaN clause: a NaN `MA3S` compares false and is not flagged). -/
def monopoleSnrBad (t : ℚ) (r : Row) : Bool := vltQ r.MA3S t

/-- `threshold_qc_monopole_snr(d, types_str, threshold=5.0)`:
copies the table and performs `d3[bad, VFLG] = d[bad, VFLG] + (1 << 3)`. -/
def threshold_qc_monopole_snr (d : List Row) (threshold : ℚ := 5) : List Row :=
  d.map fun r => if monopoleSnrBad threshold r then { r with VFLG := vaddQ r.VFLG 8 } else r

/-- `threshold_qc_all(d, types_str, thresholds=[5.0, 50.0, 5.0])`: the three
tests in sequence.  The source passes the thresholds as a 3-element list
`thresholds[0..2]`; they are the three parameters here, in the same order. -/
def threshold_qc_all (d : List Row) (t1 : ℚ := 5) (t2 : ℚ := 50) (t3 : ℚ := 5) : List Row :=
  threshold_qc_monopole_snr (threshold_qc_doa_half_power_width
    (threshold_qc_doa_peak_power d t1) t2) t3

section ValLemmas

theorem veqQ_eq_true {v : Val} {q : ℚ} : veqQ v q = true ↔ v = some q := by
  cases v <;> simp [veqQ]

theorem vltQ_eq_true {v : Val} {q : ℚ} : vltQ v q = true ↔ ∃ a, v = some a ∧ a < q := by
  cases v <;> simp [vltQ]

theorem vgtQ_eq_true {v : Val} {q : ℚ} : vgtQ v q = true ↔ ∃ a, v = some a ∧ q < a := by
  cases v <;> simp [vgtQ]

theorem veqV_eq_true {v w : Val} : veqV v w = true ↔ ∃ a, v = some a ∧ w = some a := by
  cases v <;> cases w <;> simp [veqV, eq_comm]

theorem vleV_eq_true {v w : Val} :
    vleV v w = true ↔ ∃ a b, v = some a ∧ w = some b ∧ a ≤ b := by
  cases v <;> cases w <;> simp [vleV]

end ValLemmas

/-! ## Sorting and deduplication (`numpy.unique` on row views, `numpy.lexsort`)

`unique_rows(a)` views each row as one structured element, which `numpy.unique`
sorts lexicographically column by column (each float column ordering NaN after
every number) and then deduplicates by comparing each row with its immediate
predecessor in the sorted order (rows containing NaN are never equal and are
retained).  `numpy.lexsort((k2, k1))` is a stable sort by primary key `k1`,
secondary key `k2`, which `iSort` (a stable insertion sort) reproduces. -/

/-- Strict float ordering used by numpy sorts: numbers by `<`, NaN after
every number. -/
def vltb : Val → Val → Bool
  | some a, some b => decide (a < b)
  | some _, none => true
  | none, _ => false

/-- Non-strict companion of `vltb` (`vltb` or equal as stored values). -/
def vleb : Val → Val → Bool
  | some a, some b => decide (a ≤ b)
  | some _, none => true
  | none, some _ => false
  | none, none => true

/-- Lexicographic sort-order on rows (lists of values), column by column. -/
def vlistLeb : List Val → List Val → Bool
  | [], _ => true
  | _ :: _, [] => false
  | a :: as, b :: bs => vltb a b || (decide (a = b) && vlistLeb as bs)

/-- numpy row equality: same length and every column `==` (false on NaN). -/
def rowEqb (x y : List Val) : Bool :=
  decide (x.length = y.length) && (x.zip y).all fun p => veqV p.1 p.2

/-- Drop every element equal (under `eqb`) to its immediate predecessor;
`p` is the predecessor of the head.  This is `numpy.unique`'s pass over a
sorted array. -/
def uniqueAdj {α : Type} (eqb : α → α → Bool) : α → List α → List α
  | _, [] => []
  | p, y :: ys => if eqb p y then uniqueAdj eqb y ys else y :: uniqueAdj eqb y ys

/-- Insert into a sorted list, before the first element not below `a`
(stable insertion). -/
def oInsert {α : Type} (leb : α → α → Bool) (a : α) : List α → List α
  | [] => [a]
  | b :: l => if leb a b then a :: b :: l else b :: oInsert leb a l

/-- Stable insertion sort. -/
def iSort {α : Type} (leb : α → α → Bool) : List α → List α
  | [] => []
  | a :: l => oInsert leb a (iSort leb l)

/-- `unique_rows(a)`: sort rows lexicographically, then drop rows equal to
their immediate predecessor. -/
def unique_rows (l : List (List Val)) : List (List Val) :=
  match iSort vlistLeb l with
  | [] => []
  | x :: xs => x :: uniqueAdj rowEqb x xs

/-- Lexicographic order on `(range cell, bearing)` pairs. -/
def pLeb (x y : Val × Val) : Bool :=
  vltb x.1 y.1 || (decide (x.1 = y.1) && vleb x.2 y.2)

/-- Project columns `i` (primary) and `j` (secondary) out of a row. -/
def projSB (i j : ℕ) (u : List Val) : Val × Val := (u.getD i none, u.getD j none)

/-- `numpy.lexsort` key order: compare rows by columns `(i, j)`. -/
def sbLeb (i j : ℕ) (x y : List Val) : Bool := pLeb (projSB i j x) (projSB i j y)

/-! ## Weighted averaging (`weighted_velocities`) -/

/-- The three recognised weighting policies.  The source compares
`weight_parameter.upper()` against `'MP'`, `'SNR3'`/`'SNR'` and `'NONE'`
(case-insensitively); the match is total here, other strings being outside
every claim (the source would hit an unbound local for them). -/
inductive WeightParam where
  | MP
  | SNR
  | NONE

/-- `10**(dB/10)`: decibel to linear power. -/
noncomputable def db2lin (q : ℚ) : ℝ := (10 : ℝ) ^ ((q : ℝ) / 10)

/-- A value as a real, NaN staying `none`. -/
noncomputable def valR (v : Val) : Option ℝ := v.map fun (q : ℚ) => (q : ℝ)

/-- All values of a row numeric (`some qs`), else NaN present (`none`). -/
def valsQ : List Val → Option (List ℚ)
  | [] => some []
  | none :: _ => none
  | some q :: l => (valsQ l).map fun qs => q :: qs

/-- All reals present (`some`), else NaN present (`none`). -/
def allSomeR : List (Option ℝ) → Option (List ℝ)
  | [] => some []
  | none :: _ => none
  | some x :: l => (allSomeR l).map fun xs => x :: xs

/-- Sum of a float vector: NaN if any entry is NaN. -/
noncomputable def osumR (l : List (Option ℝ)) : Option ℝ := (allSomeR l).map List.sum

/-- `w / w.sum()` elementwise (NaN propagates through sum and quotient). -/
noncomputable def normalizeO (l : List (Option ℝ)) : List (Option ℝ) :=
  l.map fun x => Option.map₂ (· / ·) x (osumR l)

/-- `numpy.dot` of two float vectors (NaN propagates). -/
noncomputable def dotO (vs ws : List (Option ℝ)) : Option ℝ :=
  osumR (List.zipWith (Option.map₂ (· * ·)) vs ws)

/-- `VELO.mean()` (NaN if any entry is NaN; only applied to nonempty cells). -/
def vmeanQ (l : List Val) : Option ℚ := (valsQ l).map fun qs => qs.sum / qs.length

/-- `VELO.std()`: numpy population standard deviation
`sqrt(mean((x - x.mean())**2))`; NaN if any entry is NaN. -/
noncomputable def vstd (l : List Val) : Option ℝ :=
  (valsQ l).map fun qs =>
    Real.sqrt (((qs.map fun q => (q - qs.sum / qs.length) ^ 2).sum / qs.length : ℚ) : ℝ)

/-- `VELO.max()` (NaN-propagating, as numpy `max` on a float row). -/
def vmaxQ (l : List Val) : Val :=
  (valsQ l).bind fun qs =>
    match qs with
    | [] => none
    | q :: rest => some (rest.foldl max q)

/-- `VELO.min()` (NaN-propagating). -/
def vminQ (l : List Val) : Val :=
  (valsQ l).bind fun qs =>
    match qs with
    | [] => none
    | q :: rest => some (rest.foldl min q)

/-- The MUSIC power column selected by `MSEL`: the source initialises `MP` to
NaN and overwrites rows with `MSEL == 1, 2, 3` from `MSP1`, `MDP1`, `MDP2`;
per row that is this selection (NaN when `MSEL` is outside `{1,2,3}`). -/
def selPower (r : Row) : Val :=
  if veqQ r.MSEL 1 then r.MSP1
  else if veqQ r.MSEL 2 then r.MDP1
  else if veqQ r.MSEL 3 then r.MDP2
  else none

/-- The rows gathered for one cell:
`(SPRC == rngcell) & (BEAR >= bearing - offset) & (BEAR <= bearing + offset) & (VFLG == 0)`. -/
def matchedRows (d : List Row) (offset : ℚ) (rngcell bearing : Val) : List Row :=
  d.filter fun r =>
    veqV r.SPRC rngcell && vleV (vsubQ bearing offset) r.BEAR &&
      vleV r.BEAR (vaddQ bearing offset) && veqQ r.VFLG 0

/-- One output row of `weighted_velocities`
(`xtypes_str = 'SPRC BEAR VELO ESPC MAXV MINV EDVC ERSC'`); every field
starts as NaN (`numpy.ones(...)*numpy.nan`). -/
structure XRow where
  SPRC : Val := none
  BEAR : Val := none
  VELO : Option ℝ := none
  ESPC : Option ℝ := none
  MAXV : Val := none
  MINV : Val := none
  EDVC : Val := none
  ERSC : Val := none

/-- The unique good cells `weighted_velocities` iterates over:
`unique_rows` of the `(SPRC, BEAR, VFLG)` columns, restricted to `VFLG == 0`,
then `numpy.lexsort((ud[:,1], ud[:,0]))` (primary `SPRC`, secondary `BEAR`). -/
def wvCells (d : List Row) : List (List Val) :=
  iSort (sbLeb 0 1)
    ((unique_rows (d.map fun r => [r.SPRC, r.BEAR, r.VFLG])).filter
      fun u => veqQ (u.getD 2 none) 0)

/-- The body of the `weighted_velocities` loop for one unique cell: gather the
matched rows; when none match the output row is left entirely NaN
(`continue`); otherwise compute the policy-weighted velocity and the
unweighted dispersion statistics. -/
noncomputable def cellOut (d : List Row) (offset : ℚ) (wp : WeightParam)
    (cell : List Val) : XRow :=
  let rngcell := cell.getD 0 none
  let bearing := cell.getD 1 none
  let m := matchedRows d offset rngcell bearing
  if m.isEmpty then {} else
  let velos := m.map Row.VELO
  let velo : Option ℝ :=
    match wp with
    | .MP => dotO (velos.map valR) (normalizeO ((m.map selPower).map fun p => p.map db2lin))
    | .SNR => dotO (velos.map valR) (normalizeO ((m.map Row.MA3S).map valR))
    | .NONE => (vmeanQ velos).map fun (q : ℚ) => (q : ℝ)
  { SPRC := rngcell, BEAR := bearing, VELO := velo, ESPC := vstd velos,
    MAXV := vmaxQ velos, MINV := vminQ velos,
    EDVC := some (velos.length : ℚ), ERSC := some (velos.length : ℚ) }

/-- `weighted_velocities(d, types_str, bearing_spread, weight_parameter)`. -/
noncomputable def weighted_velocities (d : List Row) (offset : ℚ := 1)
    (wp : WeightParam := .MP) : List XRow :=
  (wvCells d).map (cellOut d offset wp)

/-! ## Radialshort builder (`generate_radialshort_array`, `fill_radialshort_array`) -/

/-- One radialshort output row (`LLUV RDL7` schema
`LOND LATD VELU VELV VFLG ESPC MAXV MINV EDVC ERSC XDST YDST RNGE BEAR VELO HEAD SPRC`);
every field starts as NaN. -/
structure RsRow where
  LOND : Val := none
  LATD : Val := none
  VELU : Option ℝ := none
  VELV : Option ℝ := none
  VFLG : Val := none
  ESPC : Option ℝ := none
  MAXV : Val := none
  MINV : Val := none
  EDVC : Val := none
  ERSC : Val := none
  XDST : Option ℝ := none
  YDST : Option ℝ := none
  RNGE : Val := none
  BEAR : Val := none
  VELO : Option ℝ := none
  HEAD : Val := none
  SPRC : Val := none

/-- `generate_radialshort_array(d, types_str)`: `unique_rows` of the
`(LOND, LATD, VFLG, RNGE, BEAR, SPRC)` columns, restricted to `VFLG == 0`,
`numpy.lexsort((ud[:,4], ud[:,5]))` (primary `SPRC` = column 5, secondary
`BEAR` = column 4), then dealt into fresh NaN-initialised radialshort rows. -/
def generate_radialshort_array (d : List Row) : List RsRow :=
  (iSort (sbLeb 5 4)
      ((unique_rows (d.map fun r => [r.LOND, r.LATD, r.VFLG, r.RNGE, r.BEAR, r.SPRC])).filter
        fun u => veqQ (u.getD 2 none) 0)).map
    fun u =>
      { LOND := u.getD 0 none, LATD := u.getD 1 none, VFLG := u.getD 2 none,
        RNGE := u.getD 3 none, BEAR := u.getD 4 none, SPRC := u.getD 5 none }

/-- `compass2uv(wmag, wdir)` on scalars:
`u = wmag*sin(wdir*pi/180)`, `v = wmag*cos(wdir*pi/180)`. -/
noncomputable def compass2uv (wmag wdir : ℝ) : ℝ × ℝ :=
  (wmag * Real.sin (wdir * (Real.pi / 180)), wmag * Real.cos (wdir * (Real.pi / 180)))

/-- `compass2uv` on equal-shaped arrays; the source `assert`s
`wmag.shape == wdir.shape` (a shape error on mismatch, modelled as `none`). -/
noncomputable def compass2uvArr (wmag wdir : List ℝ) : Option (List ℝ × List ℝ) :=
  if wmag.length = wdir.length then
    some (List.zipWith (fun m th => (compass2uv m th).1) wmag wdir,
      List.zipWith (fun m th => (compass2uv m th).2) wmag wdir)
  else none

/-- `compass2uv` lifted elementwise to possibly-NaN floats. -/
noncomputable def compass2uvO (wmag wdir : Option ℝ) : Option ℝ × Option ℝ :=
  (Option.map₂ (fun m th => (compass2uv m th).1) wmag wdir,
    Option.map₂ (fun m th => (compass2uv m th).2) wmag wdir)

/-- The alignment precondition `fill_radialshort_array` `assert`s:
`rscells.shape == xcells.shape` and `(rscells == xcells).all()` over the
`(SPRC, BEAR)` columns (numpy `==`, false on NaN). -/
def fillAligned (rsd : List RsRow) (xd : List XRow) : Bool :=
  decide (rsd.length = xd.length) &&
    (rsd.zip xd).all fun p => veqV p.1.SPRC p.2.SPRC && veqV p.1.BEAR p.2.BEAR

/-- The per-row effect of `fill_radialshort_array` once aligned: deal the
statistics columns of `xd` into the radialshort row, then derive
`HEAD = mod(BEAR+180, 360)`, `(VELU, VELV) = compass2uv(VELO, HEAD)` and
`(XDST, YDST) = compass2uv(RNGE, BEAR)`. -/
noncomputable def fillRow (rs : RsRow) (x : XRow) : RsRow :=
  let velo := x.VELO
  let head := vmodQ (vaddQ rs.BEAR 180) 360
  let uv := compass2uvO velo (valR head)
  let xy := compass2uvO (valR rs.RNGE) (valR rs.BEAR)
  { rs with
    VELO := velo, ESPC := x.ESPC, MAXV := x.MAXV, MINV := x.MINV,
    EDVC := x.EDVC, ERSC := x.ERSC, HEAD := head,
    VELU := uv.1, VELV := uv.2, XDST := xy.1, YDST := xy.2 }

/-- `fill_radialshort_array(rsd, rsdtypes_str, xd, xtypes_str)`: `none` models
the `AssertionError` on misalignment; on success the table contents are the
filled rows.  (The source writes these contents into the `rsd` array it was
handed and returns that same array; `fillStep` below models that aliasing.) -/
noncomputable def fill_radialshort_array (rsd : List RsRow) (xd : List XRow) :
    Option (List RsRow) :=
  if fillAligned rsd xd then
    some ((rsd.zip xd).map fun p => fillRow p.1 p.2)
  else none

/-- The caller-visible buffers around a `fill_radialshort_array` call: the
skeleton array `rsd` and the averaged array `xd` the caller passed in. -/
structure PyState where
  rsd : List RsRow
  xd : List XRow

/-- `fill_radialshort_array` as it acts on the caller's buffers: the source
assigns `rsd[:, rscol] = xd[:, xcol]` (and the derived columns) into the
array object it received, so after the call the caller's skeleton buffer
holds the filled table. -/
noncomputable def fillStep (s : PyState) : Option PyState :=
  (fill_radialshort_array s.rsd s.xd).map fun r => { s with rsd := r }

/-! ## Threshold-test theorems -/

theorem getElem?_threshold_peak (d : List Row) (t : ℚ) (i : ℕ) (r : Row)
    (hr : d[i]? = some r) :
    (threshold_qc_doa_peak_power d t)[i]? =
      some (if peakPowerBad t r then { r with VFLG := vaddQ r.VFLG 2 } else r) := by
  rw [threshold_qc_doa_peak_power, List.getElem?_map, hr]
  rfl

theorem getElem?_threshold_width (d : List Row) (t : ℚ) (i : ℕ) (r : Row)
    (hr : d[i]? = some r) :
    (threshold_qc_doa_half_power_width d t)[i]? =
      some (if halfPowerWidthBad t r then { r with VFLG := vaddQ r.VFLG 4 } else r) := by
  rw [threshold_qc_doa_half_power_width, List.getElem?_map, hr]
  rfl

theorem getElem?_threshold_snr (d : List Row) (t : ℚ) (i : ℕ) (r : Row)
    (hr : d[i]? = some r) :
    (threshold_qc_monopole_snr d t)[i]? =
      some (if monopoleSnrBad t r then { r with VFLG := vaddQ r.VFLG 8 } else r) := by
  rw [threshold_qc_monopole_snr, List.getElem?_map, hr]
  rfl

/-- The `bad` mask of the peak-power test, characterised the way the spec
states it. -/
theorem peakPowerBad_iff {t : ℚ} {r : Row} :
    peakPowerBad t r = true ↔
      (((r.MSEL = some 1 ∧ ∃ q, r.MSR1 = some q ∧ q < t) ∨
        (r.MSEL = some 2 ∧ ∃ q, r.MDR1 = some q ∧ q < t) ∨
        (r.MSEL = some 3 ∧ ∃ q, r.MDR2 = some q ∧ q < t)) ∨
       (r.MSR1 = none ∨ r.MDR1 = none ∨ r.MDR2 = none)) := by
  simp only [peakPowerBad, Bool.or_eq_true, Bool.and_eq_true, veqQ_eq_true, vltQ_eq_true,
    Option.isNone_iff_eq_none, or_assoc]

/-- C1: the peak-power test flags a row (adding `1 << 1` to its `VFLG`)
exactly when (a) `MSEL` selects channel 1/2/3 and the corresponding column
`MSR1`/`MDR1`/`MDR2` is strictly below the threshold, or (b) any of the three
power columns is NaN; otherwise — in particular when `MSEL` is outside
`{1,2,3}` and all three power columns are non-NaN — the row is returned
unchanged. -/
theorem peak_power_flags_iff (d : List Row) (t : ℚ) (i : ℕ) (r : Row)
    (hr : d[i]? = some r) :
    ((((r.MSEL = some 1 ∧ ∃ q, r.MSR1 = some q ∧ q < t) ∨
        (r.MSEL = some 2 ∧ ∃ q, r.MDR1 = some q ∧ q < t) ∨
        (r.MSEL = some 3 ∧ ∃ q, r.MDR2 = some q ∧ q < t)) ∨
       (r.MSR1 = none ∨ r.MDR1 = none ∨ r.MDR2 = none)) →
      (threshold_qc_doa_peak_power d t)[i]? = some { r with VFLG := vaddQ r.VFLG 2 }) ∧
    (¬(((r.MSEL = some 1 ∧ ∃ q, r.MSR1 = some q ∧ q < t) ∨
        (r.MSEL = some 2 ∧ ∃ q, r.MDR1 = some q ∧ q < t) ∨
        (r.MSEL = some 3 ∧ ∃ q, r.MDR2 = some q ∧ q < t)) ∨
       (r.MSR1 = none ∨ r.MDR1 = none ∨ r.MDR2 = none)) →
      (threshold_qc_doa_peak_power d t)[i]? = some r) := by
  rw [getElem?_threshold_peak d t i r hr]
  constructor
  · intro hcond
    rw [if_pos (peakPowerBad_iff.mpr hcond)]
  · intro hcond
    rw [if_neg (fun hb => hcond (peakPowerBad_iff.mp hb))]

/-- A concrete row for the C1 witness: `MSEL = 2` with `MDR1 = 3` below the
default threshold `5`, all power columns numeric. -/
def rowC1 : Row :=
  { VFLG := some 0, MSEL := some 2, MSR1 := some 9, MDR1 := some 3, MDR2 := some 9 }

/-- C1 witness: on the one-row table `[rowC1]` the peak-power test fires
(selected channel 2, `MDR1 = 3 < 5`) and adds `2` to `VFLG`. -/
theorem peak_power_flags_iff_witness :
    (threshold_qc_doa_peak_power [rowC1] 5)[0]? = some { rowC1 with VFLG := some 2 } := by
  have h := (peak_power_flags_iff [rowC1] 5 0 rowC1 rfl).1
    (Or.inl (Or.inr (Or.inl ⟨rfl, 3, rfl, by norm_num⟩)))
  simpa [rowC1, vaddQ] using h

/-- C10: the monopole-SNR test leaves a NaN `MA3S` row untouched (NaN
compares false against the threshold), while the peak-power and
half-power-width tests do flag a row whose `MSR1` (resp. `MSW1`) is NaN. -/
theorem monopole_nan_unflagged (d : List Row) (t : ℚ) (i : ℕ) (r : Row)
    (hr : d[i]? = some r) :
    (r.MA3S = none → (threshold_qc_monopole_snr d t)[i]? = some r) ∧
    (r.MSR1 = none →
      (threshold_qc_doa_peak_power d t)[i]? = some { r with VFLG := vaddQ r.VFLG 2 }) ∧
    (r.MSW1 = none →
      (threshold_qc_doa_half_power_width d t)[i]? = some { r with VFLG := vaddQ r.VFLG 4 }) := by
  refine ⟨fun h3 => ?_, fun h1 => ?_, fun h2 => ?_⟩
  · rw [getElem?_threshold_snr d t i r hr, if_neg ?_]
    simp [monopoleSnrBad, h3, vltQ]
  · rw [getElem?_threshold_peak d t i r hr, if_pos ?_]
    simp [peakPowerBad, h1]
  · rw [getElem?_threshold_width d t i r hr, if_pos ?_]
    simp [halfPowerWidthBad, h2]

/-- A concrete row for the C10 witness: `MA3S` is NaN (as are the other
channel columns, irrelevant to the monopole test). -/
def rowC10 : Row := { VFLG := some 0, MSEL := some 1, MA3S := none, MSR1 := none, MSW1 := none }

/-- C10 witness: the monopole test leaves the NaN-`MA3S` row `rowC10`
unflagged, while the peak-power and width tests flag it. -/
theorem monopole_nan_unflagged_witness :
    (threshold_qc_monopole_snr [rowC10] 5)[0]? = some rowC10 ∧
    (threshold_qc_doa_peak_power [rowC10] 5)[0]? =
      some { rowC10 with VFLG := vaddQ rowC10.VFLG 2 } ∧
    (threshold_qc_doa_half_power_width [rowC10] 50)[0]? =
      some { rowC10 with VFLG := vaddQ rowC10.VFLG 4 } :=
  ⟨(monopole_nan_unflagged [rowC10] 5 0 rowC10 rfl).1 rfl,
   (monopole_nan_unflagged [rowC10] 5 0 rowC10 rfl).2.1 rfl,
   (monopole_nan_unflagged [rowC10] 50 0 rowC10 rfl).2.2 rfl⟩

/-- C8: each of the three threshold tests preserves the number of rows and,
on every row, every column other than `VFLG` (a row of the output equals the
input row with only its `VFLG` replaced). -/
theorem tests_only_touch_vflg (d : List Row) (tp tw ts : ℚ) (i : ℕ) (r : Row)
    (hr : d[i]? = some r) :
    (threshold_qc_doa_peak_power d tp).length = d.length ∧
    (threshold_qc_doa_half_power_width d tw).length = d.length ∧
    (threshold_qc_monopole_snr d ts).length = d.length ∧
    (∃ r1, (threshold_qc_doa_peak_power d tp)[i]? = some r1 ∧
      r1 = { r with VFLG := r1.VFLG }) ∧
    (∃ r2, (threshold_qc_doa_half_power_width d tw)[i]? = some r2 ∧
      r2 = { r with VFLG := r2.VFLG }) ∧
    (∃ r3, (threshold_qc_monopole_snr d ts)[i]? = some r3 ∧
      r3 = { r with VFLG := r3.VFLG }) := by
  refine ⟨List.length_map .., List.length_map .., List.length_map .., ?_, ?_, ?_⟩
  · refine ⟨_, getElem?_threshold_peak d tp i r hr, ?_⟩
    by_cases h : peakPowerBad tp r = true <;> simp [h]
  · refine ⟨_, getElem?_threshold_width d tw i r hr, ?_⟩
    by_cases h : halfPowerWidthBad tw r = true <;> simp [h]
  · refine ⟨_, getElem?_threshold_snr d ts i r hr, ?_⟩
    by_cases h : monopoleSnrBad ts r = true <;> simp [h]

/-- C8 witness: instantiation on a concrete one-row table (the row is
flagged by the peak-power test, and indeed only `VFLG` differs). -/
theorem tests_only_touch_vflg_witness :
    (threshold_qc_doa_peak_power [rowC1] 5).length = 1 ∧
    (∃ r1, (threshold_qc_doa_peak_power [rowC1] 5)[0]? = some r1 ∧
      r1 = { rowC1 with VFLG := r1.VFLG }) := by
  obtain ⟨h1, _, _, h4, _, _⟩ := tests_only_touch_vflg [rowC1] 5 50 5 0 rowC1 rfl
  exact ⟨h1, h4⟩

theorem vflg_step (r : Row) (b : Bool) (kq : ℚ) (kn : ℕ) (hk : kq = (kn : ℚ)) (n : ℕ)
    (hv : r.VFLG = some (n : ℚ)) :
    (if b = true then { r with VFLG := vaddQ r.VFLG kq } else r).VFLG =
      some ((n + if b = true then kn else 0 : ℕ) : ℚ) := by
  cases b
  · simpa using hv
  · simp [vaddQ, hv, hk]

theorem peak_ex (d : List Row) (t : ℚ) (i : ℕ) (r : Row) (n : ℕ)
    (hr : d[i]? = some r) (hv : r.VFLG = some (n : ℚ)) :
    ∃ r1, (threshold_qc_doa_peak_power d t)[i]? = some r1 ∧
      r1.VFLG = some ((n + if peakPowerBad t r = true then 2 else 0 : ℕ) : ℚ) :=
  ⟨_, getElem?_threshold_peak d t i r hr, vflg_step r _ 2 2 (by norm_num) n hv⟩

theorem width_ex (d : List Row) (t : ℚ) (i : ℕ) (r : Row) (n : ℕ)
    (hr : d[i]? = some r) (hv : r.VFLG = some (n : ℚ)) :
    ∃ r1, (threshold_qc_doa_half_power_width d t)[i]? = some r1 ∧
      r1.VFLG = some ((n + if halfPowerWidthBad t r = true then 4 else 0 : ℕ) : ℚ) :=
  ⟨_, getElem?_threshold_width d t i r hr, vflg_step r _ 4 4 (by norm_num) n hv⟩

theorem snr_ex (d : List Row) (t : ℚ) (i : ℕ) (r : Row) (n : ℕ)
    (hr : d[i]? = some r) (hv : r.VFLG = some (n : ℚ)) :
    ∃ r1, (threshold_qc_monopole_snr d t)[i]? = some r1 ∧
      r1.VFLG = some ((n + if monopoleSnrBad t r = true then 8 else 0 : ℕ) : ℚ) :=
  ⟨_, getElem?_threshold_snr d t i r hr, vflg_step r _ 8 8 (by norm_num) n hv⟩

/-- C4: through the composite threshold test a row's flag value never
decreases: starting from an integer flag `n`, the flag after the peak-power
test (`m1`), after the width test (`m2`) and after the full composite
(`m3 = threshold_qc_all`) satisfy `n ≤ m1 ≤ m2 ≤ m3`; moreover later tests
do not disturb the bits recorded by earlier ones (`m2 ≡ m1 [MOD 4]`, so the
`1<<1` bit added by the peak test survives the width test, and
`m3 ≡ m2 [MOD 8]`, so the `1<<1` and `1<<2` bits survive the SNR test). -/
theorem composite_flags_monotone (d : List Row) (t1 t2 t3 : ℚ) (i : ℕ) (n : ℕ) (r : Row)
    (hr : d[i]? = some r) (hv : r.VFLG = some (n : ℚ)) :
    ∃ r1 r2 r3 : Row, ∃ m1 m2 m3 : ℕ,
      (threshold_qc_doa_peak_power d t1)[i]? = some r1 ∧
      (threshold_qc_doa_half_power_width (threshold_qc_doa_peak_power d t1) t2)[i]? = some r2 ∧
      (threshold_qc_all d t1 t2 t3)[i]? = some r3 ∧
      r1.VFLG = some (m1 : ℚ) ∧ r2.VFLG = some (m2 : ℚ) ∧ r3.VFLG = some (m3 : ℚ) ∧
      n ≤ m1 ∧ m1 ≤ m2 ∧ m2 ≤ m3 ∧ m2 % 4 = m1 % 4 ∧ m3 % 8 = m2 % 8 := by
  obtain ⟨r1, h1, hv1⟩ := peak_ex d t1 i r n hr hv
  obtain ⟨r2, h2, hv2⟩ := width_ex (threshold_qc_doa_peak_power d t1) t2 i r1 _ h1 hv1
  obtain ⟨r3, h3, hv3⟩ :=
    snr_ex (threshold_qc_doa_half_power_width (threshold_qc_doa_peak_power d t1) t2) t3 i r2 _
      h2 hv2
  refine ⟨r1, r2, r3, _, _, _, h1, h2, h3, hv1, hv2, hv3,
    Nat.le_add_right .., Nat.le_add_right .., Nat.le_add_right .., ?_, ?_⟩
  · cases halfPowerWidthBad t2 r1 <;> simp
  · cases monopoleSnrBad t3 r2 <;> simp

/-- C4 witness: a numeric one-row table whose row trips all three tests
(`MSEL = 1`, `MSR1 = 3 < 5`, `MSW1 = 60 > 50`, `MA3S = 2 < 5`), starting
from flag `0`. -/
def rowC4 : Row :=
  { VFLG := some 0, MSEL := some 1, MSR1 := some 3, MDR1 := some 9, MDR2 := some 9,
    MSW1 := some 60, MDW1 := some 9, MDW2 := some 9, MA3S := some 2 }

/-- C4 witness: instantiating the monotonicity theorem on `[rowC4]`. -/
theorem composite_flags_monotone_witness :
    ∃ r1 r2 r3 : Row, ∃ m1 m2 m3 : ℕ,
      (threshold_qc_doa_peak_power [rowC4] 5)[0]? = some r1 ∧
      (threshold_qc_doa_half_power_width (threshold_qc_doa_peak_power [rowC4] 5) 50)[0]? =
        some r2 ∧
      (threshold_qc_all [rowC4] 5 50 5)[0]? = some r3 ∧
      r1.VFLG = some (m1 : ℚ) ∧ r2.VFLG = some (m2 : ℚ) ∧ r3.VFLG = some (m3 : ℚ) ∧
      0 ≤ m1 ∧ m1 ≤ m2 ∧ m2 ≤ m3 ∧ m2 % 4 = m1 % 4 ∧ m3 % 8 = m2 % 8 :=
  composite_flags_monotone [rowC4] 5 50 5 0 0 rowC4 rfl (by norm_num [rowC4])

/-! ## Geometry theorems -/

/-- C9: `compass2uv` returns `u = magnitude * sin(direction*pi/180)` and
`v = magnitude * cos(direction*pi/180)`; in particular
`compass2uv(1, 0) = (0, 1)` and `compass2uv(1, 90) = (1, 0)` (exactly, in
the real-number model of the float computation), and the array form fails
(the source `assert`s) when the two inputs' shapes differ. -/
theorem compass2uv_spec :
    (∀ wmag wdir : ℝ, compass2uv wmag wdir =
      (wmag * Real.sin (wdir * (Real.pi / 180)), wmag * Real.cos (wdir * (Real.pi / 180)))) ∧
    compass2uv 1 0 = (0, 1) ∧ compass2uv 1 90 = (1, 0) ∧
    (∀ wmag wdir : List ℝ, wmag.length ≠ wdir.length → compass2uvArr wmag wdir = none) := by
  refine ⟨fun _ _ => rfl, ?_, ?_, fun wmag wdir h => if_neg h⟩
  · simp [compass2uv]
  · have h90 : (90 : ℝ) * (Real.pi / 180) = Real.pi / 2 := by ring
    simp [compass2uv, h90]

/-- C9 witness: the shape-mismatch clause at the concrete pair `([1], [])`,
together with the concrete conversion facts. -/
theorem compass2uv_spec_witness :
    compass2uvArr [1] [] = none ∧ compass2uv 1 0 = (0, 1) ∧ compass2uv 1 90 = (1, 0) :=
  ⟨compass2uv_spec.2.2.2 [1] [] (by simp), compass2uv_spec.2.1, compass2uv_spec.2.2.1⟩

/-! ## Weighted-averaging lemmas -/

theorem valsQ_eq_some {l : List Val} {qs : List ℚ} :
    valsQ l = some qs ↔ l = qs.map some := by
  induction l generalizing qs with
  | nil => cases qs <;> simp [valsQ]
  | cons a l ih =>
    cases a with
    | none => cases qs <;> simp [valsQ]
    | some q =>
      cases qs with
      | nil => simp [valsQ]
      | cons q2 qs2 =>
        simp only [valsQ, Option.map_eq_some', ih, List.map_cons, List.cons.injEq,
          Option.some.injEq]
        constructor
        · rintro ⟨a, ha, hq, hqs⟩
          exact ⟨hq, hqs ▸ ha⟩
        · rintro ⟨hq, hl⟩
          exact ⟨qs2, hl, hq, rfl⟩

theorem valsQ_map_some (qs : List ℚ) : valsQ (qs.map some) = some qs :=
  valsQ_eq_some.mpr rfl

theorem allSomeR_map_some (xs : List ℝ) : allSomeR (xs.map some) = some xs := by
  induction xs with
  | nil => rfl
  | cons x xs ih => simp [allSomeR, ih]

theorem osumR_map_some (xs : List ℝ) : osumR (xs.map some) = some xs.sum := by
  simp [osumR, allSomeR_map_some]

theorem normalizeO_map_some (xs : List ℝ) :
    normalizeO (xs.map some) = (xs.map fun x => x / xs.sum).map some := by
  simp [normalizeO, osumR_map_some, List.map_map, Function.comp, Option.map₂]

theorem dotO_map_some (xs ys : List ℝ) :
    dotO (xs.map some) (ys.map some) = some (List.zipWith (· * ·) xs ys).sum := by
  rw [dotO, List.zipWith_map]
  have : (List.zipWith (fun a b => Option.map₂ (· * ·) (some a) (some b)) xs ys) =
      (List.zipWith (· * ·) xs ys).map some := by
    rw [List.map_zipWith]
    rfl
  rw [this, osumR_map_some]

theorem init_le_foldl_max : ∀ (l : List ℚ) (q : ℚ), q ≤ l.foldl max q
  | [], q => le_refl q
  | a :: l, q => le_trans (le_max_left q a) (init_le_foldl_max l (max q a))

theorem foldl_max_mem : ∀ (l : List ℚ) (q : ℚ), l.foldl max q ∈ q :: l := by
  intro l
  induction l with
  | nil => simp
  | cons a l ih =>
    intro q
    have h := ih (max q a)
    rw [List.foldl_cons]
    rcases List.mem_cons.mp h with h1 | h1
    · rcases max_choice q a with h2 | h2
      · rw [h1, h2]; exact List.mem_cons_self ..
      · rw [h1, h2]; exact List.mem_cons.mpr (Or.inr (List.mem_cons_self ..))
    · exact List.mem_cons.mpr (Or.inr (List.mem_cons.mpr (Or.inr h1)))

theorem le_foldl_max : ∀ (l : List ℚ) (q x : ℚ), (x ≤ q ∨ x ∈ l) → x ≤ l.foldl max q := by
  intro l
  induction l with
  | nil => intro q x h; simpa using h.elim id (by simp)
  | cons a l ih =>
    intro q x h
    rcases h with h | h
    · exact ih (max q a) x (Or.inl (le_trans h (le_max_left q a)))
    · rcases List.mem_cons.mp h with h | h
      · exact ih (max q a) x (Or.inl (h ▸ le_max_right q a))
      · exact ih (max q a) x (Or.inr h)

theorem foldl_min_le_init : ∀ (l : List ℚ) (q : ℚ), l.foldl min q ≤ q
  | [], q => le_refl q
  | a :: l, q => le_trans (foldl_min_le_init l (min q a)) (min_le_left q a)

theorem foldl_min_mem : ∀ (l : List ℚ) (q : ℚ), l.foldl min q ∈ q :: l := by
  intro l
  induction l with
  | nil => simp
  | cons a l ih =>
    intro q
    have h := ih (min q a)
    rw [List.foldl_cons]
    rcases List.mem_cons.mp h with h1 | h1
    · rcases min_choice q a with h2 | h2
      · rw [h1, h2]; exact List.mem_cons_self ..
      · rw [h1, h2]; exact List.mem_cons.mpr (Or.inr (List.mem_cons_self ..))
    · exact List.mem_cons.mpr (Or.inr (List.mem_cons.mpr (Or.inr h1)))

theorem foldl_min_le : ∀ (l : List ℚ) (q x : ℚ), (q ≤ x ∨ x ∈ l) → l.foldl min q ≤ x := by
  intro l
  induction l with
  | nil => intro q x h; simpa using h.elim id (by simp)
  | cons a l ih =>
    intro q x h
    rcases h with h | h
    · exact ih (min q a) x (Or.inl (le_trans (min_le_left q a) h))
    · rcases List.mem_cons.mp h with h | h
      · exact ih (min q a) x (Or.inl (h ▸ min_le_right q a))
      · exact ih (min q a) x (Or.inr h)

theorem vmaxQ_spec (qs : List ℚ) (h : qs ≠ []) :
    ∃ M, vmaxQ (qs.map some) = some M ∧ M ∈ qs ∧ ∀ x ∈ qs, x ≤ M := by
  cases qs with
  | nil => exact absurd rfl h
  | cons q rest =>
    refine ⟨rest.foldl max q, ?_, foldl_max_mem rest q, ?_⟩
    · have hq := valsQ_map_some (q :: rest)
      simp only [List.map_cons] at hq
      simp [vmaxQ, hq]
    · intro x hx
      rcases List.mem_cons.mp hx with h1 | h1
      · exact le_foldl_max rest q x (Or.inl (le_of_eq h1))
      · exact le_foldl_max rest q x (Or.inr h1)

theorem vminQ_spec (qs : List ℚ) (h : qs ≠ []) :
    ∃ M, vminQ (qs.map some) = some M ∧ M ∈ qs ∧ ∀ x ∈ qs, M ≤ x := by
  cases qs with
  | nil => exact absurd rfl h
  | cons q rest =>
    refine ⟨rest.foldl min q, ?_, foldl_min_mem rest q, ?_⟩
    · have hq := valsQ_map_some (q :: rest)
      simp only [List.map_cons] at hq
      simp [vminQ, hq]
    · intro x hx
      rcases List.mem_cons.mp hx with h1 | h1
      · exact foldl_min_le rest q x (Or.inl (le_of_eq h1.symm))
      · exact foldl_min_le rest q x (Or.inr h1)

theorem cellOut_stats (d : List Row) (offset : ℚ) (wp : WeightParam) (cell : List Val)
    (qs : List ℚ)
    (hm : matchedRows d offset (cell.getD 0 none) (cell.getD 1 none) ≠ [])
    (hv : (matchedRows d offset (cell.getD 0 none) (cell.getD 1 none)).map Row.VELO =
      qs.map some) :
    (cellOut d offset wp cell).SPRC = cell.getD 0 none ∧
    (cellOut d offset wp cell).BEAR = cell.getD 1 none ∧
    (cellOut d offset wp cell).ESPC =
      some (Real.sqrt (((qs.map fun q => (q - qs.sum / qs.length) ^ 2).sum /
        qs.length : ℚ) : ℝ)) ∧
    (cellOut d offset wp cell).MAXV = vmaxQ (qs.map some) ∧
    (cellOut d offset wp cell).MINV = vminQ (qs.map some) ∧
    (cellOut d offset wp cell).EDVC = some (qs.length : ℚ) ∧
    (cellOut d offset wp cell).ERSC = some (qs.length : ℚ) ∧
    (cellOut d offset .NONE cell).VELO = some ((qs.sum / qs.length : ℚ) : ℝ) := by
  have hvst := valsQ_map_some qs
  cases hmm : matchedRows d offset (cell.getD 0 none) (cell.getD 1 none) with
  | nil => exact absurd hmm hm
  | cons r0 rs =>
    rw [hmm] at hv
    simp only [cellOut, hmm, hv, List.isEmpty_cons, Bool.false_eq_true, if_false, vstd,
      vmeanQ, hvst, Option.map_some', List.length_map]
    exact ⟨trivial, trivial, trivial, trivial, trivial, trivial, trivial, trivial⟩

theorem cellOut_MP (d : List Row) (offset : ℚ) (cell : List Val) (qs vs : List ℚ)
    (hm : matchedRows d offset (cell.getD 0 none) (cell.getD 1 none) ≠ [])
    (hp : (matchedRows d offset (cell.getD 0 none) (cell.getD 1 none)).map selPower =
      qs.map some)
    (hv : (matchedRows d offset (cell.getD 0 none) (cell.getD 1 none)).map Row.VELO =
      vs.map some) :
    (cellOut d offset .MP cell).VELO =
      some ((List.zipWith (fun (v p : ℚ) => (v : ℝ) * (db2lin p / (qs.map db2lin).sum))
        vs qs).sum) := by
  cases hmm : matchedRows d offset (cell.getD 0 none) (cell.getD 1 none) with
  | nil => exact absurd hmm hm
  | cons r0 rs =>
    rw [hmm] at hp hv
    have h1 : ((vs.map some).map valR) = (vs.map fun (q : ℚ) => (q : ℝ)).map some := by
      rw [List.map_map, List.map_map]
      rfl
    have h2 : ((qs.map some).map fun p => p.map db2lin) = (qs.map db2lin).map some := by
      rw [List.map_map, List.map_map]
      rfl
    simp only [cellOut, hmm, List.isEmpty_cons, Bool.false_eq_true, if_false]
    rw [hv, hp, h1, h2, normalizeO_map_some, dotO_map_some, List.map_map, List.zipWith_map]
    rfl

/-- C3: for a unique good cell with a nonempty matched sample whose n
velocities are the numeric list `qs`, the averager's output row holds the
population standard deviation of `qs` as `ESPC` (for every weighting
policy), the maximum of `qs` as `MAXV`, the minimum as `MINV`, the sample
size as both `EDVC` and `ERSC`, and — under policy `NONE` — the arithmetic
mean of `qs` as the velocity. -/
theorem averager_cell_stats (d : List Row) (offset : ℚ) (wp : WeightParam) (i : ℕ)
    (cell : List Val) (qs : List ℚ)
    (hc : (wvCells d)[i]? = some cell)
    (hm : matchedRows d offset (cell.getD 0 none) (cell.getD 1 none) ≠ [])
    (hv : (matchedRows d offset (cell.getD 0 none) (cell.getD 1 none)).map Row.VELO =
      qs.map some) :
    ∃ x, (weighted_velocities d offset wp)[i]? = some x ∧
      (weighted_velocities d offset .NONE)[i]?.map XRow.VELO =
        some (some ((qs.sum / qs.length : ℚ) : ℝ)) ∧
      x.ESPC = some (Real.sqrt (((qs.map fun q => (q - qs.sum / qs.length) ^ 2).sum /
        qs.length : ℚ) : ℝ)) ∧
      (∃ M, x.MAXV = some M ∧ M ∈ qs ∧ ∀ y ∈ qs, y ≤ M) ∧
      (∃ m, x.MINV = some m ∧ m ∈ qs ∧ ∀ y ∈ qs, m ≤ y) ∧
      x.EDVC = some (qs.length : ℚ) ∧ x.ERSC = some (qs.length : ℚ) := by
  have hx : (weighted_velocities d offset wp)[i]? = some (cellOut d offset wp cell) := by
    rw [weighted_velocities, List.getElem?_map, hc]
    rfl
  have hx0 : (weighted_velocities d offset .NONE)[i]? =
      some (cellOut d offset .NONE cell) := by
    rw [weighted_velocities, List.getElem?_map, hc]
    rfl
  obtain ⟨_, _, hespc, hmaxv, hminv, hedvc, hersc, hnone⟩ :=
    cellOut_stats d offset wp cell qs hm hv
  have hqs : qs ≠ [] := by
    intro h
    subst h
    simp only [List.map_nil, List.map_eq_nil_iff] at hv
    exact hm hv
  obtain ⟨M, hM, hMmem, hMub⟩ := vmaxQ_spec qs hqs
  obtain ⟨mn, hmn, hmnmem, hmnlb⟩ := vminQ_spec qs hqs
  exact ⟨_, hx, by rw [hx0, Option.map_some', hnone], hespc,
    ⟨M, hmaxv.trans hM, hMmem, hMub⟩, ⟨mn, hminv.trans hmn, hmnmem, hmnlb⟩, hedvc, hersc⟩

/-- A velocity-`v` observation in cell `(SPRC, BEAR) = (1, 7)`, for the C3
witness. -/
def rowV (v : ℚ) : Row :=
  { VFLG := some 0, MSEL := some 1, SPRC := some 1, BEAR := some 7, VELO := some v,
    MSP1 := some 0, MA3S := some 10 }

/-- The C3 witness table: matched velocities `[2, 4, 6]` in one cell. -/
def dC3 : List Row := [rowV 2, rowV 4, rowV 6]

/-- C3 witness: on `dC3` (one cell, velocities `[2,4,6]`, spread `0`,
policy `NONE`) the averaged row holds mean `4`, max `6`, min `2` and both
counts `3`. -/
theorem averager_cell_stats_witness :
    ∃ x, (weighted_velocities dC3 0 .NONE)[0]? = some x ∧
      (weighted_velocities dC3 0 .NONE)[0]?.map XRow.VELO = some (some ((4 : ℚ) : ℝ)) ∧
      x.MAXV = some 6 ∧ x.MINV = some 2 ∧ x.EDVC = some 3 ∧ x.ERSC = some 3 := by
  have hcell : wvCells dC3 = [[some 1, some 7, some 0]] := by
    norm_num [wvCells, unique_rows, iSort, oInsert, uniqueAdj, sbLeb, pLeb, projSB,
      vlistLeb, vltb, vleb, rowEqb, veqV, veqQ, dC3, rowV, List.filter]
  have hmatched :
      matchedRows dC3 0 (([some 1, some 7, some 0] : List Val).getD 0 none)
        (([some 1, some 7, some 0] : List Val).getD 1 none) = dC3 := by
    norm_num [matchedRows, dC3, rowV, veqV, vleV, veqQ, vsubQ, vaddQ, List.filter]
  obtain ⟨x, hx, hvelo, _, hmax, hmin, hedvc, hersc⟩ :=
    averager_cell_stats dC3 0 .NONE 0 [some 1, some 7, some 0] [2, 4, 6]
      (by rw [hcell]; rfl) (by rw [hmatched]; simp [dC3])
      (by rw [hmatched]; norm_num [dC3, rowV])
  refine ⟨x, hx, by rw [hvelo]; norm_num, ?_, ?_, by simpa using hedvc,
    by simpa using hersc⟩
  · obtain ⟨M, hM, hMmem, hMub⟩ := hmax
    have h6 : (6 : ℚ) ≤ M := hMub 6 (by norm_num)
    have hM6 : M = 6 := by
      have : M = 2 ∨ M = 4 ∨ M = 6 := by simpa using hMmem
      rcases this with rfl | rfl | rfl <;> linarith
    exact hM6 ▸ hM
  · obtain ⟨m, hm2, hmmem, hmlb⟩ := hmin
    have h2 : m ≤ (2 : ℚ) := hmlb 2 (by norm_num)
    have hm_eq : m = 2 := by
      have : m = 2 ∨ m = 4 ∨ m = 6 := by simpa using hmmem
      rcases this with rfl | rfl | rfl <;> linarith
    exact hm_eq ▸ hm2

/-- A good observation in cell `(SPRC, BEAR) = (1, 5)` with `MSEL = 1`,
MUSIC power `p` dB and velocity `v`, for the C2 example. -/
def rowMP (p v : ℚ) : Row :=
  { VFLG := some 0, MSEL := some 1, SPRC := some 1, BEAR := some 5, VELO := some v,
    MSP1 := some p }

/-- The C2 example table: two matched rows, powers 0 dB and 10 dB,
velocities 10 and 20. -/
def dC2 : List Row := [rowMP 0 10, rowMP 10 20]

theorem wvCells_dC2 : wvCells dC2 = [[some 1, some 5, some 0]] := by
  norm_num [wvCells, unique_rows, iSort, oInsert, uniqueAdj, sbLeb, pLeb, projSB,
    vlistLeb, vltb, vleb, rowEqb, veqV, veqQ, dC2, rowMP, List.filter]

theorem matched_dC2 :
    matchedRows dC2 1 (([some 1, some 5, some 0] : List Val).getD 0 none)
      (([some 1, some 5, some 0] : List Val).getD 1 none) = dC2 := by
  norm_num [matchedRows, dC2, rowMP, veqV, vleV, veqQ, vsubQ, vaddQ, List.filter]

theorem db2lin_zero : db2lin 0 = 1 := by
  have h0 : ((0 : ℚ) : ℝ) / 10 = 0 := by norm_num
  rw [db2lin, h0, Real.rpow_zero]

theorem db2lin_ten : db2lin 10 = 10 := by
  have h1 : ((10 : ℚ) : ℝ) / 10 = 1 := by norm_num
  rw [db2lin, h1, Real.rpow_one]

/-- C2: under the power-weighted (`MP`) policy, the averaged velocity of a
cell whose matched rows carry numeric selected powers `qs` (dB) and numeric
velocities `vs` is the dot product of `vs` with the weights
`10^(q/10) / Σ 10^(q/10)` (decibel-to-linear conversion, normalized to sum
1); and on the concrete table `dC2` (two rows, `MSEL = 1`, powers 0 and
10 dB, velocities 10 and 20, default spread 1) the result is strictly
closer to 20 than the unweighted mean 15. -/
theorem averager_mp_weighting (d : List Row) (offset : ℚ) (i : ℕ)
    (cell : List Val) (qs vs : List ℚ)
    (hc : (wvCells d)[i]? = some cell)
    (hm : matchedRows d offset (cell.getD 0 none) (cell.getD 1 none) ≠ [])
    (hp : (matchedRows d offset (cell.getD 0 none) (cell.getD 1 none)).map selPower =
      qs.map some)
    (hv : (matchedRows d offset (cell.getD 0 none) (cell.getD 1 none)).map Row.VELO =
      vs.map some) :
    (weighted_velocities d offset .MP)[i]?.map XRow.VELO =
      some (some ((List.zipWith
        (fun (v p : ℚ) => (v : ℝ) * (db2lin p / (qs.map db2lin).sum)) vs qs).sum)) ∧
    ∃ x : ℝ, (weighted_velocities dC2 1 .MP)[0]?.map XRow.VELO = some (some x) ∧
      |x - 20| < |15 - 20| := by
  constructor
  · rw [weighted_velocities, List.getElem?_map, hc]
    simp only [Option.map_some']
    rw [cellOut_MP d offset cell qs vs hm hp hv]
  · have hm2 : matchedRows dC2 1 (([some 1, some 5, some 0] : List Val).getD 0 none)
        (([some 1, some 5, some 0] : List Val).getD 1 none) ≠ [] := by
      rw [matched_dC2]
      simp [dC2]
    have hp2 : (matchedRows dC2 1 (([some 1, some 5, some 0] : List Val).getD 0 none)
        (([some 1, some 5, some 0] : List Val).getD 1 none)).map selPower =
        ([0, 10] : List ℚ).map some := by
      rw [matched_dC2]
      norm_num [dC2, rowMP, selPower, veqQ]
    have hv2 : (matchedRows dC2 1 (([some 1, some 5, some 0] : List Val).getD 0 none)
        (([some 1, some 5, some 0] : List Val).getD 1 none)).map Row.VELO =
        ([10, 20] : List ℚ).map some := by
      rw [matched_dC2]
      norm_num [dC2, rowMP]
    have hcell := cellOut_MP dC2 1 [some 1, some 5, some 0] [0, 10] [10, 20] hm2 hp2 hv2
    refine ⟨210 / 11, ?_, ?_⟩
    · rw [weighted_velocities, wvCells_dC2, List.map_cons, List.map_nil]
      rw [show (([cellOut dC2 1 .MP [some 1, some 5, some 0]] :
        List XRow))[0]? = some (cellOut dC2 1 .MP [some 1, some 5, some 0]) from rfl]
      rw [Option.map_some', hcell]
      norm_num [List.zipWith, db2lin_zero, db2lin_ten]
    · have h5 : |(15 : ℝ) - 20| = 5 := by
        rw [show (15 : ℝ) - 20 = -5 by norm_num, abs_neg]
        rw [abs_of_nonneg (by norm_num : (0 : ℝ) ≤ 5)]
      rw [h5, abs_sub_lt_iff]
      norm_num

/-- C2 witness: the weighting theorem instantiated on the concrete table
`dC2` at its unique cell. -/
theorem averager_mp_weighting_witness :
    (weighted_velocities dC2 1 .MP)[0]?.map XRow.VELO =
      some (some ((List.zipWith
        (fun (v p : ℚ) => (v : ℝ) * (db2lin p / (([0, 10] : List ℚ).map db2lin).sum))
        [10, 20] [0, 10]).sum)) ∧
    ∃ x : ℝ, (weighted_velocities dC2 1 .MP)[0]?.map XRow.VELO = some (some x) ∧
      |x - 20| < |15 - 20| := by
  refine averager_mp_weighting dC2 1 0 [some 1, some 5, some 0] [0, 10] [10, 20]
    (by rw [wvCells_dC2]; rfl) ?_ ?_ ?_
  · rw [matched_dC2]
    simp [dC2]
  · rw [matched_dC2]
    norm_num [dC2, rowMP, selPower, veqQ]
  · rw [matched_dC2]
    norm_num [dC2, rowMP]

/-! ## Fill-step theorems -/

theorem fillAligned_imp_eq : ∀ (rsd : List RsRow) (xd : List XRow),
    fillAligned rsd xd = true →
    rsd.map (fun r => (r.SPRC, r.BEAR)) = xd.map (fun x => (x.SPRC, x.BEAR))
  | [], [], _ => rfl
  | [], _ :: _, h => by simp [fillAligned] at h
  | _ :: _, [], h => by simp [fillAligned] at h
  | r :: rs, x :: xs, h => by
    rw [fillAligned] at h
    simp only [List.length_cons, List.zip_cons_cons, List.all_cons, Bool.and_eq_true,
      decide_eq_true_eq, Nat.add_right_cancel_iff] at h
    obtain ⟨hlen, ⟨hs, hb⟩, hall⟩ := h
    obtain ⟨a, ha1, ha2⟩ := veqV_eq_true.mp hs
    obtain ⟨b, hb1, hb2⟩ := veqV_eq_true.mp hb
    have htail := fillAligned_imp_eq rs xs (by rw [fillAligned]; simp [hlen, hall])
    simp only [List.map_cons, htail, ha1, ha2, hb1, hb2, Prod.mk.injEq, List.cons.injEq]

theorem eq_imp_fillAligned : ∀ (rsd : List RsRow) (xd : List XRow),
    (∀ r ∈ rsd, r.SPRC ≠ none ∧ r.BEAR ≠ none) →
    rsd.map (fun r => (r.SPRC, r.BEAR)) = xd.map (fun x => (x.SPRC, x.BEAR)) →
    fillAligned rsd xd = true
  | [], [], _, _ => rfl
  | [], _ :: _, _, h => by simp at h
  | _ :: _, [], _, h => by simp at h
  | r :: rs, x :: xs, hnum, h => by
    simp only [List.map_cons, List.cons.injEq, Prod.mk.injEq] at h
    obtain ⟨⟨hs, hb⟩, htail⟩ := h
    obtain ⟨hs1, hb1⟩ := hnum r (List.mem_cons_self ..)
    obtain ⟨a, ha⟩ := Option.ne_none_iff_exists'.mp hs1
    obtain ⟨b, hb'⟩ := Option.ne_none_iff_exists'.mp hb1
    have hrec := eq_imp_fillAligned rs xs (fun u hu => hnum u (List.mem_cons.mpr (Or.inr hu)))
      htail
    rw [fillAligned] at hrec ⊢
    simp only [List.length_cons, List.zip_cons_cons, List.all_cons, Bool.and_eq_true,
      decide_eq_true_eq, Nat.add_right_cancel_iff] at hrec ⊢
    refine ⟨hrec.1, ⟨?_, ?_⟩, hrec.2⟩
    · exact veqV_eq_true.mpr ⟨a, ha, by rw [← hs, ha]⟩
    · exact veqV_eq_true.mpr ⟨b, hb', by rw [← hb, hb']⟩

/-- C6: `fill_radialshort_array` fails (the alignment `assert`) whenever the
`(SPRC, BEAR)` columns of the skeleton and of the averaged table are not
identical in shape and value, and succeeds when they are identical (and
numeric), copying the statistics columns `VELO ESPC MAXV MINV EDVC ERSC`
of the averaged table into the result rows. -/
theorem fill_alignment (rsd : List RsRow) (xd : List XRow) :
    (rsd.map (fun r => (r.SPRC, r.BEAR)) ≠ xd.map (fun x => (x.SPRC, x.BEAR)) →
      fill_radialshort_array rsd xd = none) ∧
    ((∀ r ∈ rsd, r.SPRC ≠ none ∧ r.BEAR ≠ none) →
      rsd.map (fun r => (r.SPRC, r.BEAR)) = xd.map (fun x => (x.SPRC, x.BEAR)) →
      fill_radialshort_array rsd xd =
        some ((rsd.zip xd).map fun p => fillRow p.1 p.2) ∧
      ∀ p ∈ rsd.zip xd, (fillRow p.1 p.2).VELO = p.2.VELO ∧
        (fillRow p.1 p.2).ESPC = p.2.ESPC ∧ (fillRow p.1 p.2).MAXV = p.2.MAXV ∧
        (fillRow p.1 p.2).MINV = p.2.MINV ∧ (fillRow p.1 p.2).EDVC = p.2.EDVC ∧
        (fillRow p.1 p.2).ERSC = p.2.ERSC) := by
  constructor
  · intro hne
    cases hA : fillAligned rsd xd with
    | true => exact absurd (fillAligned_imp_eq rsd xd hA) hne
    | false => rw [fill_radialshort_array, if_neg (by simp [hA])]
  · intro hnum heq
    refine ⟨?_, fun p _ => ⟨rfl, rfl, rfl, rfl, rfl, rfl⟩⟩
    rw [fill_radialshort_array, if_pos (eq_imp_fillAligned rsd xd hnum heq)]

/-- C6 witness skeleton: cells `(1,10)` then `(1,20)`. -/
def rsC6 : List RsRow := [{ SPRC := some 1, BEAR := some 10 }, { SPRC := some 1, BEAR := some 20 }]

/-- C6 witness: the same cell set in permuted order. -/
def xdC6perm : List XRow := [{ SPRC := some 1, BEAR := some 20 }, { SPRC := some 1, BEAR := some 10 }]

/-- C6 witness: the same cells in the same order. -/
def xdC6ok : List XRow := [{ SPRC := some 1, BEAR := some 10 }, { SPRC := some 1, BEAR := some 20 }]

/-- C6 witness: filling fails on a permuted-but-equal cell set, and succeeds
(copying the statistics) on an identically ordered one. -/
theorem fill_alignment_witness :
    fill_radialshort_array rsC6 xdC6perm = none ∧
    fill_radialshort_array rsC6 xdC6ok =
      some ((rsC6.zip xdC6ok).map fun p => fillRow p.1 p.2) :=
  ⟨(fill_alignment rsC6 xdC6perm).1 (by decide),
   ((fill_alignment rsC6 xdC6ok).2 (by decide) (by decide)).1⟩

theorem fillStep_some {s s1 : PyState} (h : fillStep s = some s1) :
    s1.xd = s.xd ∧ fill_radialshort_array s.rsd s.xd = some s1.rsd := by
  rw [fillStep] at h
  cases hf : fill_radialshort_array s.rsd s.xd with
  | none => rw [hf] at h; exact absurd h (by simp)
  | some r =>
    rw [hf] at h
    simp only [Option.map_some', Option.some.injEq] at h
    subst h
    exact ⟨rfl, rfl⟩

/-- C7 (amended): around a `fill_radialshort_array` call, the averaged-table
buffer is untouched, but the filled contents are written into the caller's
skeleton buffer (the function returns the very array it received): after the
call the skeleton buffer holds exactly the fill result. -/
theorem fill_step_effect (s s1 : PyState) (h : fillStep s = some s1) :
    s1.xd = s.xd ∧ fill_radialshort_array s.rsd s.xd = some s1.rsd :=
  fillStep_some h

/-- A concrete skeleton row on which `fill` runs (aligned, one cell
`(1, 0)`). -/
def rsC7 : RsRow :=
  { SPRC := some 1, BEAR := some 0, RNGE := some 2, VFLG := some 0, LOND := some 3,
    LATD := some 4 }

/-- The averaged row paired with `rsC7`. -/
def xdC7 : XRow :=
  { SPRC := some 1, BEAR := some 0, MAXV := some 7, MINV := some 7, EDVC := some 1,
    ERSC := some 1 }

/-- The caller's buffers before the fill call. -/
def stC7 : PyState := { rsd := [rsC7], xd := [xdC7] }

/-- C7 counterexample: on `stC7` the fill call succeeds, and afterwards the
caller's skeleton buffer differs from what the caller passed in (its `HEAD`
column has been written), refuting "the caller's input arrays are unchanged
after the call" for the fill stage. -/
theorem fill_not_pure_counterexample :
    (fillStep stC7).isSome = true ∧
    (fillStep stC7).map (fun st => st.rsd.map RsRow.HEAD) ≠
      some (stC7.rsd.map RsRow.HEAD) := by
  have hA : fillAligned stC7.rsd stC7.xd = true := by decide
  have hfill : fill_radialshort_array stC7.rsd stC7.xd =
      some ((stC7.rsd.zip stC7.xd).map fun p => fillRow p.1 p.2) := by
    rw [fill_radialshort_array, if_pos hA]
  have hstep : fillStep stC7 =
      some { stC7 with rsd := (stC7.rsd.zip stC7.xd).map fun p => fillRow p.1 p.2 } := by
    rw [fillStep, hfill, Option.map_some']
  constructor
  · rw [hstep]
    rfl
  · rw [hstep]
    intro h
    simp only [Option.map_some', Option.some.injEq, stC7, List.zip_cons_cons,
      List.zip_nil_right, List.map_cons, List.map_nil, List.cons.injEq, and_true] at h
    simp [fillRow, vmodQ, vaddQ, rsC7] at h

/-- The state of the caller's buffers after the fill call on `stC7`. -/
noncomputable def stC7fill : PyState :=
  { rsd := (stC7.rsd.zip stC7.xd).map fun p => fillRow p.1 p.2, xd := stC7.xd }

/-- C7 witness (amended claim): on the concrete buffers `stC7` the fill call
leaves the averaged buffer alone and writes the fill result into the
skeleton buffer. -/
theorem fill_step_effect_witness :
    stC7fill.xd = stC7.xd ∧
    fill_radialshort_array stC7.rsd stC7.xd = some stC7fill.rsd :=
  fill_step_effect stC7 stC7fill (by
    rw [fillStep, fill_radialshort_array, if_pos (by decide : fillAligned stC7.rsd stC7.xd = true),
      Option.map_some']
    rfl)

/-! ## Sorting lemmas for the round-trip claim -/

section SortLemmas

variable {α : Type} (leb eqb : α → α → Bool)

theorem mem_oInsert {a b : α} {l : List α} :
    a ∈ oInsert leb b l ↔ a = b ∨ a ∈ l := by
  induction l with
  | nil => simp [oInsert]
  | cons c l ih =>
    rw [oInsert]
    by_cases h : leb b c = true
    · simp [h]
    · simp only [Bool.not_eq_true] at h
      simp [h, ih, or_left_comm]

theorem oInsert_perm (a : α) : ∀ l : List α, List.Perm (oInsert leb a l) (a :: l)
  | [] => List.Perm.refl _
  | b :: l => by
    rw [oInsert]
    by_cases h : leb a b = true
    · simp [h]
    · simp only [Bool.not_eq_true] at h
      simp only [h, Bool.false_eq_true, if_false]
      exact ((oInsert_perm a l).cons b).trans (List.Perm.swap a b l)

theorem iSort_perm : ∀ l : List α, List.Perm (iSort leb l) l
  | [] => List.Perm.refl _
  | a :: l => (oInsert_perm leb a (iSort leb l)).trans ((iSort_perm l).cons a)

theorem pairwise_oInsert
    (total : ∀ x y : α, leb x y = true ∨ leb y x = true)
    (trans : ∀ x y z : α, leb x y = true → leb y z = true → leb x z = true)
    (a : α) : ∀ l : List α, List.Pairwise (fun x y => leb x y = true) l →
      List.Pairwise (fun x y => leb x y = true) (oInsert leb a l)
  | [], _ => List.pairwise_singleton _ a
  | b :: l, hp => by
    rw [oInsert]
    obtain ⟨hb, hl⟩ := List.pairwise_cons.mp hp
    by_cases h : leb a b = true
    · simp only [h, if_true]
      refine List.pairwise_cons.mpr ⟨?_, hp⟩
      intro c hc
      rcases List.mem_cons.mp hc with rfl | hc
      · exact h
      · exact trans a b c h (hb c hc)
    · simp only [h, Bool.false_eq_true, if_false]
      refine List.pairwise_cons.mpr ⟨?_, pairwise_oInsert total trans a l hl⟩
      intro c hc
      rcases (mem_oInsert leb).mp hc with rfl | hc
      · rcases total c b with ht | ht
        · exact absurd ht h
        · exact ht
      · exact hb c hc

theorem pairwise_iSort
    (total : ∀ x y : α, leb x y = true ∨ leb y x = true)
    (trans : ∀ x y z : α, leb x y = true → leb y z = true → leb x z = true) :
    ∀ l : List α, List.Pairwise (fun x y => leb x y = true) (iSort leb l)
  | [] => List.Pairwise.nil
  | a :: l => pairwise_oInsert leb total trans a _ (pairwise_iSort total trans l)

theorem uniqueAdj_sublist (p : α) : ∀ l : List α, List.Sublist (uniqueAdj eqb p l) l
  | [] => List.Sublist.refl _
  | y :: ys => by
    rw [uniqueAdj]
    by_cases h : eqb p y = true
    · simp only [h, if_true]
      exact (uniqueAdj_sublist y ys).cons y
    · simp only [h, Bool.false_eq_true, if_false]
      exact (uniqueAdj_sublist y ys).cons₂ y

theorem mem_uniqueAdj (faithful : ∀ x y : α, eqb x y = true → x = y) :
    ∀ (p : α) (l : List α), ∀ a ∈ l, a ∈ p :: uniqueAdj eqb p l := by
  intro p l
  induction l generalizing p with
  | nil => intro a ha; cases ha
  | cons y ys ih =>
    intro a ha
    rw [uniqueAdj]
    by_cases h : eqb p y = true
    · have hpy := faithful p y h
      simp only [h, if_true]
      rcases List.mem_cons.mp ha with rfl | ha
      · exact hpy ▸ List.mem_cons_self ..
      · rcases List.mem_cons.mp (ih y a ha) with rfl | hmem
        · exact hpy ▸ List.mem_cons_self ..
        · exact List.mem_cons.mpr (Or.inr hmem)
    · simp only [h, Bool.false_eq_true, if_false]
      rcases List.mem_cons.mp ha with rfl | ha
      · exact List.mem_cons.mpr (Or.inr (List.mem_cons_self ..))
      · rcases List.mem_cons.mp (ih y a ha) with rfl | hmem
        · exact List.mem_cons.mpr (Or.inr (List.mem_cons_self ..))
        · exact List.mem_cons.mpr (Or.inr (List.mem_cons.mpr (Or.inr hmem)))

theorem chain_uniqueAdj (faithful : ∀ x y : α, eqb x y = true → x = y) :
    ∀ (p : α) (l : List α), List.Chain (fun a b => eqb a b = false) p (uniqueAdj eqb p l) := by
  intro p l
  induction l generalizing p with
  | nil => exact List.Chain.nil
  | cons y ys ih =>
    rw [uniqueAdj]
    by_cases h : eqb p y = true
    · simp only [h, if_true]
      exact (faithful p y h) ▸ ih y
    · simp only [h, Bool.false_eq_true, if_false]
      exact List.Chain.cons (by simpa using h) (ih y)

/-- Strictly speaking: in a `le`-sorted, adjacently-`eqb`-distinct list, no
element satisfying `P` (on which `eqb` is reflexive) occurs twice. -/
theorem pairwise_ne_of_sorted_chain (P : α → Prop)
    (antisymm : ∀ x y : α, leb x y = true → leb y x = true → x = y)
    (rfleq : ∀ a : α, P a → eqb a a = true) :
    ∀ l : List α, List.Pairwise (fun x y => leb x y = true) l →
      List.Chain' (fun a b => eqb a b = false) l →
      List.Pairwise (fun a b => P a → a ≠ b) l := by
  intro l
  induction l with
  | nil => intro _ _; exact List.Pairwise.nil
  | cons x xs ih =>
    intro hp hc
    obtain ⟨hx, hxs⟩ := List.pairwise_cons.mp hp
    refine List.pairwise_cons.mpr ⟨?_, ih hxs hc.tail⟩
    intro b hb hP heq
    cases xs with
    | nil => cases hb
    | cons y ys =>
      have hxy : eqb x y = false := List.chain'_cons.mp hc |>.1
      rcases List.mem_cons.mp hb with rfl | hb2
      · rw [heq] at hxy
        rw [rfleq b (heq ▸ hP)] at hxy
        cases hxy
      · have h1 : leb x y = true := hx y (List.mem_cons_self ..)
        have h2 : leb y b = true :=
          (List.pairwise_cons.mp hxs).1 b hb2
        rw [← heq] at h2
        have hxy2 : x = y := antisymm x y h1 h2
        have hr : eqb y y = true := rfleq y (hxy2 ▸ hP)
        rw [hxy2, hr] at hxy
        cases hxy

/-- Two strictly sorted lists (under an antisymmetric `le`) with the same
members are equal. -/
theorem eq_of_strict_sorted_mem_iff
    (antisymm : ∀ x y : α, leb x y = true → leb y x = true → x = y) :
    ∀ l₁ l₂ : List α,
      List.Pairwise (fun a b => leb a b = true ∧ a ≠ b) l₁ →
      List.Pairwise (fun a b => leb a b = true ∧ a ≠ b) l₂ →
      (∀ a, a ∈ l₁ ↔ a ∈ l₂) → l₁ = l₂
  | [], [], _, _, _ => rfl
  | [], b :: t₂, _, _, hmem => by
    have := (hmem b).mpr (List.mem_cons_self ..)
    cases this
  | a :: t₁, [], _, _, hmem => by
    have := (hmem a).mp (List.mem_cons_self ..)
    cases this
  | a :: t₁, b :: t₂, hp₁, hp₂, hmem => by
    obtain ⟨ha, ht₁⟩ := List.pairwise_cons.mp hp₁
    obtain ⟨hb, ht₂⟩ := List.pairwise_cons.mp hp₂
    have hab : a = b := by
      rcases List.mem_cons.mp ((hmem a).mp (List.mem_cons_self ..)) with h | h
      · exact h
      · rcases List.mem_cons.mp ((hmem b).mpr (List.mem_cons_self ..)) with h2 | h2
        · exact h2.symm
        · obtain ⟨hba, _⟩ := hb a h
          obtain ⟨hab2, _⟩ := ha b h2
          exact antisymm a b hab2 hba
    subst hab
    have htmem : ∀ c, c ∈ t₁ ↔ c ∈ t₂ := by
      intro c
      constructor
      · intro hcel
        rcases List.mem_cons.mp ((hmem c).mp (List.mem_cons.mpr (Or.inr hcel))) with rfl | h
        · exact absurd rfl (ha c hcel).2
        · exact h
      · intro hcel
        rcases List.mem_cons.mp ((hmem c).mpr (List.mem_cons.mpr (Or.inr hcel))) with rfl | h
        · exact absurd rfl (hb c hcel).2
        · exact h
    rw [eq_of_strict_sorted_mem_iff antisymm t₁ t₂ ht₁ ht₂ htmem]

end SortLemmas

/-! ## Order properties of the numpy row orderings -/

theorem vltb_irrefl (a : Val) : vltb a a = false := by
  cases a <;> simp [vltb]

theorem vltb_asymm {a b : Val} (h : vltb a b = true) : vltb b a = false := by
  cases a <;> cases b <;> simp_all [vltb]
  exact le_of_lt h

theorem vltb_trichotomy (a b : Val) : vltb a b = true ∨ a = b ∨ vltb b a = true := by
  cases a with
  | none => cases b with
    | none => exact Or.inr (Or.inl rfl)
    | some q => exact Or.inr (Or.inr (by simp [vltb]))
  | some p => cases b with
    | none => exact Or.inl (by simp [vltb])
    | some q =>
      rcases lt_trichotomy p q with h | h | h
      · exact Or.inl (by simp [vltb, h])
      · exact Or.inr (Or.inl (by rw [h]))
      · exact Or.inr (Or.inr (by simp [vltb, h]))

theorem vltb_trans {a b c : Val} (h1 : vltb a b = true) (h2 : vltb b c = true) :
    vltb a c = true := by
  cases a <;> cases b <;> cases c <;> simp_all [vltb]
  exact lt_trans h1 h2

theorem vleb_total (a b : Val) : vleb a b = true ∨ vleb b a = true := by
  cases a <;> cases b <;> simp [vleb]
  exact le_total _ _

theorem vleb_trans {a b c : Val} (h1 : vleb a b = true) (h2 : vleb b c = true) :
    vleb a c = true := by
  cases a <;> cases b <;> cases c <;> simp_all [vleb]
  exact le_trans h1 h2

theorem vleb_antisymm {a b : Val} (h1 : vleb a b = true) (h2 : vleb b a = true) : a = b := by
  cases a <;> cases b <;> simp_all [vleb]
  exact le_antisymm h1 h2

theorem vlistLeb_total : ∀ x y : List Val, vlistLeb x y = true ∨ vlistLeb y x = true
  | [], _ => Or.inl rfl
  | _ :: _, [] => Or.inr rfl
  | a :: as, b :: bs => by
    rcases vltb_trichotomy a b with h | h | h
    · exact Or.inl (by simp [vlistLeb, h])
    · subst h
      rcases vlistLeb_total as bs with h2 | h2
      · exact Or.inl (by simp [vlistLeb, h2])
      · exact Or.inr (by simp [vlistLeb, h2])
    · exact Or.inr (by simp [vlistLeb, h])

theorem vlistLeb_trans : ∀ x y z : List Val,
    vlistLeb x y = true → vlistLeb y z = true → vlistLeb x z = true
  | [], _, _, _, _ => rfl
  | a :: as, [], _, h1, _ => by simp [vlistLeb] at h1
  | _ :: _, _ :: _, [], _, h2 => by simp [vlistLeb] at h2
  | a :: as, b :: bs, c :: cs, h1, h2 => by
    simp only [vlistLeb, Bool.or_eq_true, Bool.and_eq_true, decide_eq_true_eq] at h1 h2 ⊢
    rcases h1 with h1 | ⟨rfl, h1⟩
    · rcases h2 with h2 | ⟨rfl, h2⟩
      · exact Or.inl (vltb_trans h1 h2)
      · exact Or.inl h1
    · rcases h2 with h2 | ⟨rfl, h2⟩
      · exact Or.inl h2
      · exact Or.inr ⟨rfl, vlistLeb_trans as bs cs h1 h2⟩

theorem vlistLeb_antisymm : ∀ x y : List Val,
    vlistLeb x y = true → vlistLeb y x = true → x = y
  | [], [], _, _ => rfl
  | [], _ :: _, _, h2 => by simp [vlistLeb] at h2
  | _ :: _, [], h1, _ => by simp [vlistLeb] at h1
  | a :: as, b :: bs, h1, h2 => by
    simp only [vlistLeb, Bool.or_eq_true, Bool.and_eq_true, decide_eq_true_eq] at h1 h2
    rcases h1 with h1 | ⟨rfl, h1⟩
    · rcases h2 with h2 | ⟨heq, h2⟩
      · rw [vltb_asymm h1] at h2
        cases h2
      · rw [heq, vltb_irrefl] at h1
        cases h1
    · rcases h2 with h2 | ⟨_, h2⟩
      · rw [vltb_irrefl] at h2
        cases h2
      · rw [vlistLeb_antisymm as bs h1 h2]

theorem pLeb_total (x y : Val × Val) : pLeb x y = true ∨ pLeb y x = true := by
  rcases vltb_trichotomy x.1 y.1 with h | h | h
  · exact Or.inl (by simp [pLeb, h])
  · rcases vleb_total x.2 y.2 with h2 | h2
    · exact Or.inl (by simp [pLeb, h, h2])
    · exact Or.inr (by simp [pLeb, h.symm, h2])
  · exact Or.inr (by simp [pLeb, h])

theorem pLeb_trans {x y z : Val × Val} (h1 : pLeb x y = true) (h2 : pLeb y z = true) :
    pLeb x z = true := by
  simp only [pLeb, Bool.or_eq_true, Bool.and_eq_true, decide_eq_true_eq] at h1 h2 ⊢
  rcases h1 with h1 | ⟨he1, h1⟩
  · rcases h2 with h2 | ⟨he2, h2⟩
    · exact Or.inl (vltb_trans h1 h2)
    · exact Or.inl (he2 ▸ h1)
  · rcases h2 with h2 | ⟨he2, h2⟩
    · exact Or.inl (he1 ▸ h2)
    · exact Or.inr ⟨he1.trans he2, vleb_trans h1 h2⟩

theorem pLeb_antisymm {x y : Val × Val} (h1 : pLeb x y = true) (h2 : pLeb y x = true) :
    x = y := by
  simp only [pLeb, Bool.or_eq_true, Bool.and_eq_true, decide_eq_true_eq] at h1 h2
  rcases h1 with h1 | ⟨he1, h1⟩
  · rcases h2 with h2 | ⟨he2, h2⟩
    · rw [vltb_asymm h1] at h2
      cases h2
    · rw [he2, vltb_irrefl] at h1
      cases h1
  · rcases h2 with h2 | ⟨he2, h2⟩
    · rw [he1, vltb_irrefl] at h2
      cases h2
    · exact Prod.ext he1 (vleb_antisymm h1 h2)

theorem sbLeb_total (i j : ℕ) (x y : List Val) :
    sbLeb i j x y = true ∨ sbLeb i j y x = true := pLeb_total _ _

theorem sbLeb_trans (i j : ℕ) {x y z : List Val} (h1 : sbLeb i j x y = true)
    (h2 : sbLeb i j y z = true) : sbLeb i j x z = true := pLeb_trans h1 h2

theorem rowEqb_imp_eq : ∀ x y : List Val, rowEqb x y = true → x = y
  | [], [], _ => rfl
  | [], _ :: _, h => by simp [rowEqb] at h
  | _ :: _, [], h => by simp [rowEqb] at h
  | a :: as, b :: bs, h => by
    simp only [rowEqb, List.length_cons, List.zip_cons_cons, List.all_cons, Bool.and_eq_true,
      decide_eq_true_eq, Nat.add_right_cancel_iff] at h
    obtain ⟨hlen, hab, hall⟩ := h
    obtain ⟨q, hq1, hq2⟩ := veqV_eq_true.mp hab
    have := rowEqb_imp_eq as bs (by simp [rowEqb, hlen, hall])
    rw [hq1, hq2, this]

theorem rowEqb_refl : ∀ x : List Val, (∀ v ∈ x, v ≠ none) → rowEqb x x = true
  | [], _ => rfl
  | a :: as, h => by
    obtain ⟨q, hq⟩ := Option.ne_none_iff_exists'.mp (h a (List.mem_cons_self ..))
    have := rowEqb_refl as fun v hv => h v (List.mem_cons.mpr (Or.inr hv))
    simp only [rowEqb, List.length_cons, List.zip_cons_cons, List.all_cons, Bool.and_eq_true,
      decide_eq_true_eq, Nat.add_right_cancel_iff] at this ⊢
    exact ⟨this.1, veqV_eq_true.mpr ⟨q, hq, hq⟩, this.2⟩

theorem mem_unique_rows {a : List Val} {l : List (List Val)} :
    a ∈ unique_rows l ↔ a ∈ l := by
  rw [unique_rows]
  cases h : iSort vlistLeb l with
  | nil =>
    have hp := iSort_perm vlistLeb l
    rw [h] at hp
    rw [(List.Perm.symm hp).eq_nil]
  | cons x xs =>
    have hp := iSort_perm vlistLeb l
    rw [h] at hp
    constructor
    · intro ha
      have hsub : List.Sublist (x :: uniqueAdj rowEqb x xs) (x :: xs) :=
        (uniqueAdj_sublist rowEqb x xs).cons₂ x
      exact hp.subset (hsub.subset ha)
    · intro ha
      have hx : a ∈ x :: xs := hp.mem_iff.mpr ha
      rcases List.mem_cons.mp hx with rfl | hxs
      · exact List.mem_cons_self ..
      · exact mem_uniqueAdj rowEqb rowEqb_imp_eq x xs a hxs

theorem pairwise_unique_rows (l : List (List Val)) :
    List.Pairwise (fun x y => vlistLeb x y = true) (unique_rows l) := by
  rw [unique_rows]
  cases h : iSort vlistLeb l with
  | nil => exact List.Pairwise.nil
  | cons x xs =>
    have hs := pairwise_iSort vlistLeb vlistLeb_total (fun x y z => vlistLeb_trans x y z) l
    rw [h] at hs
    exact List.Pairwise.sublist ((uniqueAdj_sublist rowEqb x xs).cons₂ x) hs

theorem chain'_unique_rows (l : List (List Val)) :
    List.Chain' (fun a b => rowEqb a b = false) (unique_rows l) := by
  rw [unique_rows]
  cases h : iSort vlistLeb l with
  | nil => exact List.chain'_nil
  | cons x xs => exact chain_uniqueAdj rowEqb rowEqb_imp_eq x xs

/-- The `(SPRC, BEAR)` cell list produced by deduplicating the `f`-columns of
the table, keeping good rows, lexsorting by columns `(i, j)` and projecting
those columns (the common heart of `weighted_velocities` and
`generate_radialshort_array`). -/
def cellsOf (d : List Row) (f : Row → List Val) (i j : ℕ) : List (Val × Val) :=
  (iSort (sbLeb i j)
      ((unique_rows (d.map f)).filter fun u => veqQ (u.getD 2 none) 0)).map (projSB i j)

theorem mem_filter_good (d : List Row) (f : Row → List Val)
    (hgood : ∀ r, (f r).getD 2 none = r.VFLG) (u : List Val) :
    (u ∈ (unique_rows (d.map f)).filter fun w => veqQ (w.getD 2 none) 0) ↔
      ∃ r ∈ d, r.VFLG = some 0 ∧ u = f r := by
  rw [List.mem_filter, mem_unique_rows, List.mem_map]
  constructor
  · rintro ⟨⟨r, hr, rfl⟩, hq⟩
    rw [hgood r] at hq
    exact ⟨r, hr, veqQ_eq_true.mp hq, rfl⟩
  · rintro ⟨r, hr, hv, rfl⟩
    exact ⟨⟨r, hr, rfl⟩, by rw [hgood r]; exact veqQ_eq_true.mpr hv⟩

theorem cellsOf_spec (d : List Row) (f : Row → List Val) (i j : ℕ)
    (hproj : ∀ r : Row, projSB i j (f r) = (r.SPRC, r.BEAR))
    (hgood : ∀ r : Row, (f r).getD 2 none = r.VFLG)
    (hnum : ∀ r ∈ d, r.VFLG = some 0 → ∀ v ∈ f r, v ≠ none)
    (hinj : ∀ r₁ r₂, r₁ ∈ d → r₂ ∈ d → r₁.VFLG = some 0 → r₂.VFLG = some 0 →
      r₁.SPRC = r₂.SPRC → r₁.BEAR = r₂.BEAR → f r₁ = f r₂) :
    List.Pairwise (fun a b => pLeb a b = true ∧ a ≠ b) (cellsOf d f i j) ∧
    ∀ p : Val × Val, p ∈ cellsOf d f i j ↔
      ∃ r ∈ d, r.VFLG = some 0 ∧ p = (r.SPRC, r.BEAR) := by
  have hperm := iSort_perm (sbLeb i j)
    ((unique_rows (d.map f)).filter fun u => veqQ (u.getD 2 none) 0)
  have hmemT : ∀ u, (u ∈ iSort (sbLeb i j)
      ((unique_rows (d.map f)).filter fun w => veqQ (w.getD 2 none) 0)) ↔
      ∃ r ∈ d, r.VFLG = some 0 ∧ u = f r := by
    intro u
    rw [hperm.mem_iff]
    exact mem_filter_good d f hgood u
  -- no good tuple occurs twice in the deduplicated list
  have hne : List.Pairwise (fun a b => (∀ v ∈ a, v ≠ none) → a ≠ b)
      (unique_rows (d.map f)) :=
    pairwise_ne_of_sorted_chain vlistLeb rowEqb (fun u => ∀ v ∈ u, v ≠ none)
      vlistLeb_antisymm rowEqb_refl _ (pairwise_unique_rows _) (chain'_unique_rows _)
  have hnodupS : ((unique_rows (d.map f)).filter
      fun u => veqQ (u.getD 2 none) 0).Nodup := by
    have hfil := List.Pairwise.filter (fun u => veqQ (u.getD 2 none) 0) hne
    refine hfil.imp_of_mem ?_
    intro a b ha _ hab
    obtain ⟨r, hr, hv, rfl⟩ := (mem_filter_good d f hgood a).mp ha
    exact hab (hnum r hr hv)
  have hnodupT : (iSort (sbLeb i j)
      ((unique_rows (d.map f)).filter fun u => veqQ (u.getD 2 none) 0)).Nodup :=
    hperm.nodup_iff.mpr hnodupS
  have hpairT : List.Pairwise (fun x y => sbLeb i j x y = true)
      (iSort (sbLeb i j) ((unique_rows (d.map f)).filter fun u => veqQ (u.getD 2 none) 0)) :=
    pairwise_iSort (sbLeb i j) (sbLeb_total i j) (fun _ _ _ => sbLeb_trans i j) _
  have hpairL : List.Pairwise (fun a b => pLeb a b = true) (cellsOf d f i j) :=
    List.Pairwise.map (projSB i j) (fun _ _ h => h) hpairT
  have hnodupL : (cellsOf d f i j).Nodup := by
    refine List.Nodup.map_on ?_ hnodupT
    intro x hx y hy hxy
    obtain ⟨r₁, hr₁, hv₁, rfl⟩ := (hmemT x).mp hx
    obtain ⟨r₂, hr₂, hv₂, rfl⟩ := (hmemT y).mp hy
    rw [hproj r₁, hproj r₂, Prod.mk.injEq] at hxy
    exact hinj r₁ r₂ hr₁ hr₂ hv₁ hv₂ hxy.1 hxy.2
  refine ⟨hpairL.and hnodupL, ?_⟩
  intro p
  rw [cellsOf, List.mem_map]
  constructor
  · rintro ⟨u, hu, rfl⟩
    obtain ⟨r, hr, hv, rfl⟩ := (hmemT u).mp hu
    exact ⟨r, hr, hv, hproj r⟩
  · rintro ⟨r, hr, hv, rfl⟩
    exact ⟨f r, (hmemT (f r)).mpr ⟨r, hr, hv, rfl⟩, hproj r⟩


theorem cellOut_id (d : List Row) (offset : ℚ) (wp : WeightParam) (cell : List Val)
    (hm : matchedRows d offset (cell.getD 0 none) (cell.getD 1 none) ≠ []) :
    (cellOut d offset wp cell).SPRC = cell.getD 0 none ∧
    (cellOut d offset wp cell).BEAR = cell.getD 1 none := by
  cases hmm : matchedRows d offset (cell.getD 0 none) (cell.getD 1 none) with
  | nil => exact absurd hmm hm
  | cons r0 rs =>
    simp only [cellOut, hmm, List.isEmpty_cons, Bool.false_eq_true, if_false]
    exact ⟨trivial, trivial⟩

theorem mem_wvCells {d : List Row} {u : List Val} :
    u ∈ wvCells d ↔ ∃ r ∈ d, r.VFLG = some 0 ∧ u = [r.SPRC, r.BEAR, r.VFLG] := by
  rw [wvCells]
  exact (iSort_perm (sbLeb 0 1) _).mem_iff.trans
    (mem_filter_good d (fun r => [r.SPRC, r.BEAR, r.VFLG]) (fun _ => rfl) u)

theorem matched_self {d : List Row} {r : Row} (hr : r ∈ d) (hv : r.VFLG = some 0)
    (offset : ℚ) (hoff : 0 ≤ offset) {sq bq : ℚ} (hsq : r.SPRC = some sq)
    (hbq : r.BEAR = some bq) :
    r ∈ matchedRows d offset r.SPRC r.BEAR := by
  rw [matchedRows, List.mem_filter]
  refine ⟨hr, ?_⟩
  simp only [hsq, hbq, hv, vsubQ, vaddQ, Option.map_some', veqV, vleV, veqQ,
    Bool.and_eq_true, decide_eq_true_eq, and_true, true_and]
  exact ⟨by linarith, by linarith⟩

theorem weighted_cells (d : List Row) (offset : ℚ) (wp : WeightParam) (hoff : 0 ≤ offset)
    (hnum : ∀ r ∈ d, r.VFLG = some 0 → r.SPRC ≠ none ∧ r.BEAR ≠ none) :
    (weighted_velocities d offset wp).map (fun x => (x.SPRC, x.BEAR)) =
      (wvCells d).map (projSB 0 1) := by
  rw [weighted_velocities, List.map_map]
  refine List.map_congr_left ?_
  intro u hu
  obtain ⟨r, hr, hv, rfl⟩ := mem_wvCells.mp hu
  obtain ⟨hS, hB⟩ := hnum r hr hv
  obtain ⟨sq, hsq⟩ := Option.ne_none_iff_exists'.mp hS
  obtain ⟨bq, hbq⟩ := Option.ne_none_iff_exists'.mp hB
  have hmem := matched_self hr hv offset hoff hsq hbq
  have hne : matchedRows d offset (([r.SPRC, r.BEAR, r.VFLG] : List Val).getD 0 none)
      (([r.SPRC, r.BEAR, r.VFLG] : List Val).getD 1 none) ≠ [] :=
    List.ne_nil_of_mem hmem
  obtain ⟨h1, h2⟩ := cellOut_id d offset wp [r.SPRC, r.BEAR, r.VFLG] hne
  show ((cellOut d offset wp [r.SPRC, r.BEAR, r.VFLG]).SPRC,
    (cellOut d offset wp [r.SPRC, r.BEAR, r.VFLG]).BEAR) = projSB 0 1 [r.SPRC, r.BEAR, r.VFLG]
  rw [h1, h2]
  rfl

theorem generate_cells (d : List Row) :
    (generate_radialshort_array d).map (fun u => (u.SPRC, u.BEAR)) =
      cellsOf d (fun r => [r.LOND, r.LATD, r.VFLG, r.RNGE, r.BEAR, r.SPRC]) 5 4 := by
  rw [generate_radialshort_array, cellsOf, List.map_map]
  rfl

/-- C5 (amended): when every good row has numeric cell and position columns,
`(SPRC, BEAR)` determines `(LOND, LATD, RNGE)` among good rows, and the
bearing spread is nonnegative, the averaged table of `weighted_velocities`
and the skeleton of `generate_radialshort_array` built from the same input
carry exactly the same `(SPRC, BEAR)` cells in the same row order — so the
alignment precondition of `fill_radialshort_array` holds on this
round-trip. -/
theorem roundtrip_alignment_amended (d : List Row) (offset : ℚ) (wp : WeightParam)
    (hoff : 0 ≤ offset)
    (hnum : ∀ r ∈ d, r.VFLG = some 0 →
      r.SPRC ≠ none ∧ r.BEAR ≠ none ∧ r.LOND ≠ none ∧ r.LATD ≠ none ∧ r.RNGE ≠ none)
    (hdet : ∀ r₁ r₂, r₁ ∈ d → r₂ ∈ d → r₁.VFLG = some 0 → r₂.VFLG = some 0 →
      r₁.SPRC = r₂.SPRC → r₁.BEAR = r₂.BEAR →
      r₁.LOND = r₂.LOND ∧ r₁.LATD = r₂.LATD ∧ r₁.RNGE = r₂.RNGE) :
    (weighted_velocities d offset wp).map (fun x => (x.SPRC, x.BEAR)) =
      (generate_radialshort_array d).map (fun u => (u.SPRC, u.BEAR)) ∧
    (fill_radialshort_array (generate_radialshort_array d)
      (weighted_velocities d offset wp)).isSome = true := by
  have hA := cellsOf_spec d (fun r => [r.SPRC, r.BEAR, r.VFLG]) 0 1
    (fun _ => rfl) (fun _ => rfl)
    (by
      intro r hr hv v hvmem
      obtain ⟨hS, hB, _, _, _⟩ := hnum r hr hv
      simp only [List.mem_cons, List.not_mem_nil, or_false] at hvmem
      rcases hvmem with rfl | rfl | rfl
      · exact hS
      · exact hB
      · rw [hv]; exact Option.some_ne_none 0)
    (by
      intro r₁ r₂ _ _ hv1 hv2 hs hb
      show [r₁.SPRC, r₁.BEAR, r₁.VFLG] = [r₂.SPRC, r₂.BEAR, r₂.VFLG]
      rw [hs, hb, hv1, hv2])
  have hB := cellsOf_spec d (fun r => [r.LOND, r.LATD, r.VFLG, r.RNGE, r.BEAR, r.SPRC]) 5 4
    (fun _ => rfl) (fun _ => rfl)
    (by
      intro r hr hv v hvmem
      obtain ⟨hS, hBe, hL, hLa, hR⟩ := hnum r hr hv
      simp only [List.mem_cons, List.not_mem_nil, or_false] at hvmem
      rcases hvmem with rfl | rfl | rfl | rfl | rfl | rfl
      · exact hL
      · exact hLa
      · rw [hv]; exact Option.some_ne_none 0
      · exact hR
      · exact hBe
      · exact hS)
    (by
      intro r₁ r₂ h1 h2 hv1 hv2 hs hb
      obtain ⟨hLo, hLa, hRn⟩ := hdet r₁ r₂ h1 h2 hv1 hv2 hs hb
      show [r₁.LOND, r₁.LATD, r₁.VFLG, r₁.RNGE, r₁.BEAR, r₁.SPRC] =
        [r₂.LOND, r₂.LATD, r₂.VFLG, r₂.RNGE, r₂.BEAR, r₂.SPRC]
      rw [hLo, hLa, hRn, hv1, hv2, hs, hb])
  have hcells : cellsOf d (fun r => [r.SPRC, r.BEAR, r.VFLG]) 0 1 =
      cellsOf d (fun r => [r.LOND, r.LATD, r.VFLG, r.RNGE, r.BEAR, r.SPRC]) 5 4 :=
    eq_of_strict_sorted_mem_iff pLeb (fun _ _ h1 h2 => pLeb_antisymm h1 h2) _ _ hA.1 hB.1
      (fun p => (hA.2 p).trans ((hB.2 p).symm))
  have hW : (weighted_velocities d offset wp).map (fun x => (x.SPRC, x.BEAR)) =
      cellsOf d (fun r => [r.SPRC, r.BEAR, r.VFLG]) 0 1 :=
    weighted_cells d offset wp hoff
      (fun r hr hv => ⟨(hnum r hr hv).1, (hnum r hr hv).2.1⟩)
  have hG := generate_cells d
  have hmain : (weighted_velocities d offset wp).map (fun x => (x.SPRC, x.BEAR)) =
      (generate_radialshort_array d).map (fun u => (u.SPRC, u.BEAR)) := by
    rw [hW, hcells, ← hG]
  refine ⟨hmain, ?_⟩
  have hrsnum : ∀ rrow ∈ generate_radialshort_array d,
      rrow.SPRC ≠ none ∧ rrow.BEAR ≠ none := by
    intro rrow hrr
    rw [generate_radialshort_array] at hrr
    obtain ⟨u, hu, rfl⟩ := List.mem_map.mp hrr
    have hufil := (iSort_perm (sbLeb 5 4) _).mem_iff.mp hu
    obtain ⟨r, hr, hv, rfl⟩ := (mem_filter_good d
      (fun r => [r.LOND, r.LATD, r.VFLG, r.RNGE, r.BEAR, r.SPRC]) (fun _ => rfl) u).mp hufil
    obtain ⟨hS, hBe, _, _, _⟩ := hnum r hr hv
    exact ⟨hS, hBe⟩
  have hAligned := eq_imp_fillAligned (generate_radialshort_array d)
    (weighted_velocities d offset wp) hrsnum hmain.symm
  rw [fill_radialshort_array, if_pos hAligned]
  rfl

/-- Two good observations that share the cell `(SPRC, BEAR) = (1, 2)` but
disagree on `LOND`: the skeleton dedupes on six columns, the averager on
three, so their row counts diverge. -/
def rowL (lond : ℚ) : Row :=
  { VFLG := some 0, SPRC := some 1, BEAR := some 2, LOND := some lond, LATD := some 0,
    RNGE := some 0, VELO := some 1, MSEL := some 1, MSP1 := some 0, MA3S := some 3 }

/-- The C5 counterexample table. -/
def dC5 : List Row := [rowL 0, rowL 1]

/-- C5 counterexample: on `dC5` the averaged table has one `(SPRC, BEAR)`
row while the skeleton has two, so the claimed round-trip alignment fails
as stated (for an arbitrary input table). -/
theorem roundtrip_alignment_counterexample :
    (weighted_velocities dC5 1 .MP).map (fun x => (x.SPRC, x.BEAR)) ≠
      (generate_radialshort_array dC5).map (fun u => (u.SPRC, u.BEAR)) := by
  have h1 : wvCells dC5 = [[some 1, some 2, some 0]] := by
    norm_num [wvCells, unique_rows, iSort, oInsert, uniqueAdj, sbLeb, pLeb, projSB,
      vlistLeb, vltb, vleb, rowEqb, veqV, veqQ, dC5, rowL, List.filter]
  have h2 : (generate_radialshort_array dC5).map (fun u => (u.SPRC, u.BEAR)) =
      [(some 1, some 2), (some 1, some 2)] := by
    rw [generate_cells]
    norm_num [cellsOf, unique_rows, iSort, oInsert, uniqueAdj, sbLeb, pLeb, projSB,
      vlistLeb, vltb, vleb, rowEqb, veqV, veqQ, dC5, rowL, List.filter]
  intro h
  rw [weighted_velocities, h1, h2] at h
  simp at h

/-- A single fully numeric good observation, for the C5 witness. -/
def rowC5w : Row :=
  { VFLG := some 0, SPRC := some 1, BEAR := some 2, LOND := some 3, LATD := some 4,
    RNGE := some 5, VELO := some 6, MSEL := some 1, MSP1 := some 0, MA3S := some 7 }

/-- C5 witness: on the one-row table `[rowC5w]` the amended round-trip
alignment holds. -/
theorem roundtrip_alignment_amended_witness :
    (weighted_velocities [rowC5w] 1 .MP).map (fun x => (x.SPRC, x.BEAR)) =
      (generate_radialshort_array [rowC5w]).map (fun u => (u.SPRC, u.BEAR)) ∧
    (fill_radialshort_array (generate_radialshort_array [rowC5w])
      (weighted_velocities [rowC5w] 1 .MP)).isSome = true :=
  roundtrip_alignment_amended [rowC5w] 1 .MP (by norm_num)
    (by
      intro r hr hv
      simp only [List.mem_singleton] at hr
      subst hr
      simp [rowC5w])
    (by
      intro r₁ r₂ h1 h2 _ _ _ _
      simp only [List.mem_singleton] at h1 h2
      subst h1
      subst h2
      exact ⟨rfl, rfl, rfl⟩)
